import Mathlib

/-!
# astcontext: source selection and recursive directory parsing

A shallow embedding of `astcontext/parser.go`: the constructor `NewParser`, which picks
one of three sources (file, directory, in-memory buffer), and `parseDirRecursive`, which
walks a directory tree and groups the parsed files in packages keyed by
`<directory>#<package name>`.

The Go standard library is outside the repository.  Its pieces used by the code are
modelled as follows.

* `os.ReadDir` and `parser.ParseFile`: the file system is a finite tree (`Listing`,
  `Entries`); every entry carries what `parser.ParseFile` answers for it and what
  `os.ReadDir` answers for it.
* `strings.HasPrefix`, `strings.HasSuffix`, `filepath.Join` (with `filepath.Clean`, Unix):
  executable definitions on the characters of the strings.
* Go maps: association lists with at most one binding per key (`GoMap`).
-/

namespace Astcontext

/-! ## Strings and paths -/

/-- Go's `error` values are identified with their message. -/
abbrev GoError := String

/-- The type `parser.Mode` (a bit set). -/
abbrev Mode := Nat

/-- The constant `parser.ParseComments`. -/
def ParseComments : Mode := 4

/-- Go's `strings.HasPrefix`. -/
def HasPrefix (s pre : String) : Bool := pre.data.isPrefixOf s.data

/-- Go's `strings.HasSuffix`. -/
def HasSuffix (s suf : String) : Bool := suf.data.reverse.isPrefixOf s.data.reverse

/-- Splits a path at every separator `/` (as `strings.Split(path, "/")`). -/
def splitSep : List Char → List (List Char)
  | [] => [[]]
  | c :: cs =>
    if c = '/' then [] :: splitSep cs
    else
      match splitSep cs with
      | [] => [[c]]
      | x :: xs => (c :: x) :: xs

/-- One step of `filepath.Clean`: the path element `el` is read while `out` holds the
elements kept so far, the last one first.  Empty elements and `.` are dropped; `..`
removes the element before it, is dropped at the root of a rooted path, and is kept when
only `..` elements precede it in a relative path. -/
def cleanStep (rooted : Bool) (out : List (List Char)) (el : List Char) : List (List Char) :=
  if el = [] then out
  else if el = ['.'] then out
  else if el = ['.', '.'] then
    match out with
    | [] => if rooted then [] else [el]
    | top :: below => if top = ['.', '.'] then (if rooted then out else el :: out) else below
  else el :: out

/-- Writes the elements `els` with a separator between two neighbours. -/
def joinSep : List (List Char) → List Char
  | [] => []
  | [x] => x
  | x :: y :: rest => x ++ '/' :: joinSep (y :: rest)

/-- The path written by `filepath.Clean` for the kept elements `out` (last one first):
`/` first when rooted, and `.` when nothing at all is left. -/
def render (rooted : Bool) (out : List (List Char)) : List Char :=
  if rooted then '/' :: joinSep out.reverse
  else if out = [] then ['.'] else joinSep out.reverse

/-- Whether a path starts with the separator. -/
def isRooted : List Char → Bool
  | c :: _ => c = '/'
  | [] => false

/-- The elements `filepath.Clean` keeps of a path, the last one first. -/
def cleanElems (p : List Char) : List (List Char) :=
  (splitSep p).foldl (cleanStep (isRooted p)) []

/-- Go's `filepath.Clean` on Unix, on the characters of the path. -/
def cleanChars (p : List Char) : List Char := render (isRooted p) (cleanElems p)

/-- Go's `filepath.Clean` on Unix. -/
def Clean (path : String) : String := ⟨cleanChars path.data⟩

/-- Go's `filepath.Join` on Unix for two elements: elements that are empty are ignored,
the others are joined by the separator and the result is cleaned; the result is empty
when both are. -/
def Join (dir name : String) : String :=
  if dir ≠ "" then Clean (dir ++ "/" ++ name)
  else if name ≠ "" then Clean name
  else ""

/-! ## Maps, syntax trees and the file system -/

/-- A Go `map[string]V`: an association list, read and written through `get` and `set`. -/
abbrev GoMap (V : Type) := List (String × V)

/-- The map read `m[k]`, with `none` for an absent key. -/
def GoMap.get {V : Type} : GoMap V → String → Option V
  | [], _ => none
  | (k', v') :: m, k => if k' = k then some v' else GoMap.get m k

/-- The map write `m[k] = v`: replaces the binding of `k` or adds one. -/
def GoMap.set {V : Type} : GoMap V → String → V → GoMap V
  | [], k, v => [(k, v)]
  | (k', v') :: m, k, v => if k' = k then (k, v) :: m else (k', v') :: GoMap.set m k v

/-- The keys of a map. -/
def GoMap.keys {V : Type} (m : GoMap V) : List String := m.map Prod.fst

/-- The loop `for k, v := range d { pkgs[k] = v }`. -/
def GoMap.mergeInto {V : Type} (pkgs d : GoMap V) : GoMap V :=
  d.foldl (fun acc kv => GoMap.set acc kv.1 kv.2) pkgs

/-- A parsed file `*ast.File`: the declared package name `f.Name.Name`, and the rest of
the syntax tree, which the code never inspects. -/
structure AstFile where
  Name : String
  Rest : Nat
  deriving DecidableEq, Repr

/-- The struct `ast.Package` (the fields the code sets). -/
structure Package where
  Name : String
  Files : GoMap AstFile
  deriving DecidableEq, Repr

/-- The interface `os.DirEntry` (the methods the code calls). -/
structure DirEntry where
  Name : String
  IsDir : Bool
  deriving DecidableEq, Repr

mutual
/-- The answer of `os.ReadDir` for a path: an error, or the entries in the order
reported. -/
inductive Listing where
  | fail (err : GoError) : Listing
  | ok (infos : Entries) : Listing
/-- The entries of a directory.  Each one comes with `parsed`, the answer of
`parser.ParseFile` for that entry under a mode, and `listed`, the answer of `os.ReadDir`
for that entry. -/
inductive Entries where
  | nil : Entries
  | cons (fi : DirEntry) (parsed : Mode → Except GoError AstFile) (listed : Listing)
      (rest : Entries) : Entries
end

/-- The pair of results `(pkgs, err)` of `parseDirRecursive`; `pkgs = none` is the nil
map. -/
structure DirResult where
  pkgs : Option (GoMap Package)
  err : Option GoError
  deriving DecidableEq, Repr

/-! ## The code -/

/-- The body of the `else if` branch after a successful parse: look the record
`dir + "#" + f.Name.Name` up, create it when absent, and store the file under `fname`. -/
def addFile (pkgs : GoMap Package) (dir fname : String) (f : AstFile) : GoMap Package :=
  let pname := dir ++ "#" ++ f.Name
  match pkgs.get pname with
  | some pkg => pkgs.set pname { pkg with Files := pkg.Files.set fname f }
  | none => pkgs.set pname { Name := pname, Files := GoMap.set [] fname f }

mutual
/-- The function `parseDirRecursive`; the file set is left out, and the answer of
`os.ReadDir(dir)` is the argument `listing`. -/
def parseDirRecursive (dir : String) (mode : Mode) : Listing → DirResult
  | .fail err => { pkgs := none, err := some err }
  | .ok infos => parseDirLoop dir mode infos []
/-- The loop `for _, fi := range infos` of `parseDirRecursive`, started with the
accumulated map `pkgs`.  A bare `return` hands back the current `pkgs` and `err`. -/
def parseDirLoop (dir : String) (mode : Mode) : Entries → GoMap Package → DirResult
  | .nil, pkgs => { pkgs := some pkgs, err := none }
  | .cons fi parsed listed rest, pkgs =>
    if fi.IsDir && !HasPrefix fi.Name "." then
      match parseDirRecursive (Join dir fi.Name) mode listed with
      | { pkgs := _, err := some err } => { pkgs := some pkgs, err := some err }
      | { pkgs := d, err := none } =>
        parseDirLoop dir mode rest (GoMap.mergeInto pkgs (d.getD []))
    else if HasSuffix fi.Name ".go" then
      match parsed mode with
      | .error err => { pkgs := some pkgs, err := some err }
      | .ok f => parseDirLoop dir mode rest (addFile pkgs dir (Join dir fi.Name) f)
    else parseDirLoop dir mode rest pkgs
end

/-- The struct `ParserOptions`; `Src = none` is the nil slice. -/
structure ParserOptions where
  File : String
  Dir : String
  Src : Option (List Nat)
  Comments : Bool
  deriving DecidableEq, Repr

/-- The struct `Parser` without its file set; `none` is a nil field. -/
structure Parser where
  file : Option AstFile
  pkgs : Option (GoMap Package)
  deriving DecidableEq, Repr

/-- What `NewParser` reaches outside itself: `parser.ParseFile(fset, filename, src, mode)`
and the file system tree that `os.ReadDir` finds under a path. -/
structure World where
  ParseFile : String → Option (List Nat) → Mode → Except GoError AstFile
  ReadDir : String → Listing

/-- A call that `NewParser` makes. -/
inductive Call where
  | parseFile (filename : String) (src : Option (List Nat)) (mode : Mode) : Call
  | parseDir (dir : String) (mode : Mode) : Call
  deriving DecidableEq, Repr

/-- How a call of `NewParser` ends: a run-time panic, or the pair `(*Parser, error)`. -/
inductive Outcome where
  | panic (msg : String) : Outcome
  | ret (p : Option Parser) (err : Option GoError) : Outcome
  deriving DecidableEq, Repr

/-- A run of `NewParser`: the calls made, in order, and how it ends. -/
structure Run where
  calls : List Call
  outcome : Outcome
  deriving DecidableEq, Repr

/-- The message of the panic raised by reading a field through a nil pointer. -/
def nilDereference : String :=
  "runtime error: invalid memory address or nil pointer dereference"

/-- The function `NewParser`; `opts = none` is the nil pointer.  The guard
`opts != nil && opts.Comments` protects the read of `Comments` only: the `switch` reads
`opts.File` first, through the pointer. -/
def NewParser (w : World) (opts : Option ParserOptions) : Run :=
  let mode : Mode :=
    match opts with
    | some o => if o.Comments then ParseComments else 0
    | none => 0
  match opts with
  | none => { calls := [], outcome := .panic nilDereference }
  | some o =>
    if o.File ≠ "" then
      match w.ParseFile o.File none mode with
      | .error err => { calls := [.parseFile o.File none mode], outcome := .ret none (some err) }
      | .ok f =>
        { calls := [.parseFile o.File none mode],
          outcome := .ret (some { file := some f, pkgs := none }) none }
    else if o.Dir ≠ "" then
      match parseDirRecursive o.Dir mode (w.ReadDir o.Dir) with
      | { pkgs := _, err := some err } =>
        { calls := [.parseDir o.Dir mode], outcome := .ret none (some err) }
      | { pkgs := pkgs, err := none } =>
        { calls := [.parseDir o.Dir mode],
          outcome := .ret (some { file := none, pkgs := pkgs }) none }
    else if o.Src ≠ none then
      match w.ParseFile "src.go" o.Src mode with
      | .error err => { calls := [.parseFile "src.go" o.Src mode], outcome := .ret none (some err) }
      | .ok f =>
        { calls := [.parseFile "src.go" o.Src mode],
          outcome := .ret (some { file := some f, pkgs := none }) none }
    else { calls := [], outcome := .ret none (some "file, src or dir is not specified") }

/-! ## Vocabulary of the properties -/

/-- The test of the first branch of the loop: a subdirectory whose name does not start
with a dot. -/
def DirEntry.traversed (fi : DirEntry) : Bool := fi.IsDir && !HasPrefix fi.Name "."

/-- The entries handed to the parser: not traversed, and with a name ending in `.go`. -/
def DirEntry.parsedEntry (fi : DirEntry) : Bool := !fi.traversed && HasSuffix fi.Name ".go"

/-- The entries that are neither traversed nor handed to the parser. -/
def DirEntry.ignored (fi : DirEntry) : Bool := !fi.traversed && !HasSuffix fi.Name ".go"

/-- The entries `xs` followed by the entries `ys`. -/
def Entries.append : Entries → Entries → Entries
  | .nil, ys => ys
  | .cons fi parsed listed rest, ys => .cons fi parsed listed (Entries.append rest ys)

/-- Whether every entry is a subdirectory with a name starting with a dot. -/
def Entries.onlyHiddenDirs : Entries → Bool
  | .nil => true
  | .cons fi _ _ rest => fi.IsDir && HasPrefix fi.Name "." && Entries.onlyHiddenDirs rest

/-- Whether some entry, file or directory, has a name ending in `.go`. -/
def Entries.hasGoName : Entries → Bool
  | .nil => false
  | .cons fi _ _ rest => HasSuffix fi.Name ".go" || Entries.hasGoName rest

/-- Whether some entry that is not a directory has a name ending in `.go`. -/
def Entries.hasGoFile : Entries → Bool
  | .nil => false
  | .cons fi _ _ rest => (!fi.IsDir && HasSuffix fi.Name ".go") || Entries.hasGoFile rest

mutual
/-- The errors present in the traversed part of a tree, in traversal order (a directory
before its entries, the entries in listing order, a subdirectory's tree where it stands):
the listings that fail and the parsed entries that the parser rejects. -/
def Listing.failures (mode : Mode) : Listing → List GoError
  | .fail err => [err]
  | .ok infos => Entries.failures mode infos
/-- The errors present under the entries of a directory, in traversal order. -/
def Entries.failures (mode : Mode) : Entries → List GoError
  | .nil => []
  | .cons fi parsed listed rest =>
    (if fi.traversed then Listing.failures mode listed
     else if HasSuffix fi.Name ".go" then
       (match parsed mode with
        | .error err => [err]
        | .ok _ => [])
     else []) ++ Entries.failures mode rest
end

/-- The tree `ys` is the tree `xs` without one ignored entry, taken out of the listing of
the directory itself or of a directory below it. -/
inductive RemoveIgnored : Entries → Entries → Prop where
  | here (fi : DirEntry) (parsed : Mode → Except GoError AstFile) (listed : Listing)
      (rest : Entries) (h : fi.ignored = true) :
      RemoveIgnored (.cons fi parsed listed rest) rest
  | later (fi : DirEntry) (parsed : Mode → Except GoError AstFile) (listed : Listing)
      (xs ys : Entries) (h : RemoveIgnored xs ys) :
      RemoveIgnored (.cons fi parsed listed xs) (.cons fi parsed listed ys)
  | inside (fi : DirEntry) (parsed : Mode → Except GoError AstFile) (xs ys rest : Entries)
      (h : RemoveIgnored xs ys) :
      RemoveIgnored (.cons fi parsed (.ok xs) rest) (.cons fi parsed (.ok ys) rest)

/-- A name as `os.ReadDir` reports it: not empty and without a separator. -/
def validName (name : String) : Bool := name ≠ "" && !name.data.contains '/'

/-- The names of the entries of a directory. -/
def Entries.names : Entries → List String
  | .nil => []
  | .cons fi _ _ rest => fi.Name :: Entries.names rest

mutual
/-- A listing whose directories, at every depth, hold valid names, each one once. -/
def Listing.wellFormed : Listing → Bool
  | .fail _ => true
  | .ok infos => Entries.wellFormed infos
/-- Every name is valid and stands once in its directory, at every depth. -/
def Entries.wellFormed : Entries → Bool
  | .nil => true
  | .cons fi _ listed rest =>
    validName fi.Name && !(Entries.names rest).contains fi.Name &&
      Listing.wellFormed listed && Entries.wellFormed rest
end

mutual
/-- No package name declared by an accepted file of the tree holds a `#`. -/
def Listing.noHash (mode : Mode) : Listing → Bool
  | .fail _ => true
  | .ok infos => Entries.noHash mode infos
/-- No package name declared by an accepted file under these entries holds a `#`. -/
def Entries.noHash (mode : Mode) : Entries → Bool
  | .nil => true
  | .cons _ parsed listed rest =>
    (match parsed mode with
      | .ok f => !f.Name.data.contains '#'
      | .error _ => true) &&
      Listing.noHash mode listed && Entries.noHash mode rest
end

mutual
/-- The directories of the traversal of `dir`, each with its path and its entries: `dir`
itself, and every subdirectory reached through subdirectories with names not starting
with a dot, under the path `filepath.Join` of its parent's path and its name. -/
def Listing.reached (dir : String) : Listing → List (String × Entries)
  | .fail _ => []
  | .ok infos => (dir, infos) :: Entries.reachedBelow dir infos
/-- The directories of the traversal that lie below the directory `dir`. -/
def Entries.reachedBelow (dir : String) : Entries → List (String × Entries)
  | .nil => []
  | .cons fi _ listed rest =>
    (if fi.traversed then Listing.reached (Join dir fi.Name) listed else []) ++
      Entries.reachedBelow dir rest
end

/-- The files that the entries directly in the directory `dir` declare: for every parsed
entry that the parser accepts, its path `filepath.Join(dir, name)` and its syntax tree. -/
def Entries.declared (dir : String) (mode : Mode) : Entries → List (String × AstFile)
  | .nil => []
  | .cons fi parsed _ rest =>
    (if fi.parsedEntry then
      (match parsed mode with
        | .ok f => [(Join dir fi.Name, f)]
        | .error _ => [])
     else []) ++ Entries.declared dir mode rest

/-- The key `k` is `D + "#" + n` for a directory `D` among `dirs` and a package name `n`
declared by a file directly in `D`. -/
def KeyFrom (dirs : List (String × Entries)) (mode : Mode) (k : String) : Prop :=
  ∃ D es p f, (D, es) ∈ dirs ∧ (p, f) ∈ Entries.declared D mode es ∧ k = D ++ "#" ++ f.Name

mutual
/-- The keys that the merges `pkgs[k] = v` of a walk write while `pkgs` already holds
them, in the order of the walk; the walk itself is `parseDirRecursive`. -/
def Listing.overwritten (dir : String) (mode : Mode) : Listing → List String
  | .fail _ => []
  | .ok infos => Entries.overwritten dir mode infos []
/-- The keys that the merges of the loop, started with `pkgs`, and of the walks below it
write while they are already present. -/
def Entries.overwritten (dir : String) (mode : Mode) : Entries → GoMap Package → List String
  | .nil, _ => []
  | .cons fi parsed listed rest, pkgs =>
    if fi.IsDir && !HasPrefix fi.Name "." then
      Listing.overwritten (Join dir fi.Name) mode listed ++
        (match parseDirRecursive (Join dir fi.Name) mode listed with
          | { pkgs := _, err := some _ } => []
          | { pkgs := d, err := none } =>
            (GoMap.keys (d.getD [])).filter (fun k => (GoMap.get pkgs k).isSome) ++
              Entries.overwritten dir mode rest (GoMap.mergeInto pkgs (d.getD [])))
    else if HasSuffix fi.Name ".go" then
      match parsed mode with
      | .error _ => []
      | .ok f => Entries.overwritten dir mode rest (addFile pkgs dir (Join dir fi.Name) f)
    else Entries.overwritten dir mode rest pkgs
end

/-- The record reached from `r` by storing the files `fs` one after the other, as the
loop does: the first one creates the record `pname` when there is none. -/
def extendRec (r : Option Package) (pname : String) (fs : List (String × AstFile)) :
    Option Package :=
  fs.foldl (fun acc qf =>
    some (match acc with
      | some pkg => { pkg with Files := GoMap.set pkg.Files qf.1 qf.2 }
      | none => { Name := pname, Files := GoMap.set [] qf.1 qf.2 })) r

/-- The files of `fs` that declare the package `n`. -/
def filesNamed (n : String) (fs : List (String × AstFile)) : List (String × AstFile) :=
  fs.filter (fun qf => qf.2.Name = n)

/-- A path element that `filepath.Clean` keeps: not empty, without separator, not `.`. -/
def IsElem (el : List Char) : Prop := el ≠ [] ∧ '/' ∉ el ∧ el ≠ ['.']

/-- The shape of the kept elements (last one first): `..` elements stand only at the start
of a path that is not rooted. -/
def Kept (r : Bool) : List (List Char) → Prop
  | [] => True
  | top :: below =>
    IsElem top ∧ Kept r below ∧ (top = ['.', '.'] → r = false ∧ ∀ x ∈ below, x = ['.', '.'])

/-- The mode that `NewParser` hands on for the options `o`. -/
def ParserOptions.mode (o : ParserOptions) : Mode := if o.Comments then ParseComments else 0

/-! ## Example inputs -/

/-- A parser answer: the file is accepted and declares the package `name`. -/
def accepts (name : String) (rest : Nat) : Mode → Except GoError AstFile :=
  fun _ => .ok { Name := name, Rest := rest }

/-- A parser answer: the file is rejected with the error `err`. -/
def rejects (err : GoError) : Mode → Except GoError AstFile := fun _ => .error err

/-- A regular file entry: the parser answers `parsed`, and it cannot be listed. -/
def fileEntry (name : String) (parsed : Mode → Except GoError AstFile) (rest : Entries) :
    Entries :=
  .cons { Name := name, IsDir := false } parsed (.fail "not a directory") rest

/-- A directory entry with the entries `infos`: it cannot be read as a file. -/
def dirEntry (name : String) (infos : Entries) (rest : Entries) : Entries :=
  .cons { Name := name, IsDir := true } (rejects "is a directory") (.ok infos) rest

/-- The tree of the example of the specification: `a/x.go` declares package `a` and
`b/y.go` declares package `b`. -/
def exampleTree : Entries :=
  dirEntry "a" (fileEntry "x.go" (accepts "a" 1) .nil)
    (dirEntry "b" (fileEntry "y.go" (accepts "b" 2) .nil) .nil)

/-- The entries of a directory `/root` that holds one empty hidden subdirectory, named
`.x.go`; reading a directory as a file fails. -/
def hiddenGoDir : Entries :=
  .cons { Name := ".x.go", IsDir := true } (rejects "read /root/.x.go: is a directory")
    (.ok .nil) .nil

/-- A directory with two files that declare the same package. -/
def samePackageTree : Entries :=
  fileEntry "a.go" (accepts "p" 1) (fileEntry "b.go" (accepts "p" 2) .nil)

/-- A tree that no file system holds: two subdirectories of one directory bear the same
name, and a file of each declares the package `p`. -/
def collidingTree : Entries :=
  dirEntry "a" (fileEntry "x.go" (accepts "p" 1) .nil)
    (dirEntry "a" (fileEntry "y.go" (accepts "p" 2) .nil) .nil)

/-- A world for the examples: the parser accepts every source as package `p`, and every
path is an empty directory. -/
def emptyWorld : World :=
  { ParseFile := fun _ _ _ => .ok { Name := "p", Rest := 0 }, ReadDir := fun _ => .ok .nil }

/-- A world for the examples: the parser accepts every source as package `p`, and every
path holds the tree `infos`. -/
def treeWorld (infos : Entries) : World :=
  { ParseFile := fun _ _ _ => .ok { Name := "p", Rest := 0 }, ReadDir := fun _ => .ok infos }

/-! ## Paths -/

/-- The model of `filepath.Join` and `filepath.Clean` on paths whose results Go documents
or that show each rule of `Clean`. -/
theorem join_examples :
    Join "/root" "a" = "/root/a" ∧ Join "/root/" "a" = "/root/a" ∧ Join "." "a" = "a" ∧
      Join "" "a" = "a" ∧ Join "/" "b" = "/b" ∧ Join "a/../.." "b" = "../b" ∧
      Join "/.." "b" = "/b" ∧ Join "a//b/./c/.." "" = "a/b" ∧ Join "" "" = "" ∧
      Clean "" = "." ∧ Clean "a/.." = "." ∧ Clean "/../a/../.." = "/" ∧
      Clean "../../a/../b" = "../../b" := by
  decide

theorem splitSep_ne_nil (p : List Char) : splitSep p ≠ [] := by
  cases p with
  | nil => simp [splitSep]
  | cons c cs =>
    simp only [splitSep]
    split
    · simp
    · split <;> simp

theorem splitSep_append_sep (a b : List Char) :
    splitSep (a ++ '/' :: b) = splitSep a ++ splitSep b := by
  induction a with
  | nil => simp [splitSep]
  | cons c cs ih =>
    by_cases hc : c = '/'
    · simp [splitSep, hc, ih]
    · simp only [List.cons_append, splitSep, hc, if_false]
      cases hs : splitSep cs with
      | nil => exact absurd hs (splitSep_ne_nil cs)
      | cons x xs =>
        have ih' : splitSep (cs.append ('/' :: b)) = x :: (xs ++ splitSep b) := by
          simpa [hs] using ih
        rw [ih']
        simp

theorem splitSep_noSep (n : List Char) (h : '/' ∉ n) : splitSep n = [n] := by
  induction n with
  | nil => simp [splitSep]
  | cons c cs ih =>
    simp only [List.mem_cons, not_or] at h
    have hc : ¬ c = '/' := fun e => h.1 e.symm
    simp [splitSep, hc, ih h.2]

theorem noSep_of_mem_splitSep (p : List Char) : ∀ el ∈ splitSep p, '/' ∉ el := by
  induction p with
  | nil => simp [splitSep]
  | cons c cs ih =>
    by_cases hc : c = '/'
    · simp only [splitSep, hc, if_true, List.mem_cons]
      rintro el (rfl | h)
      · simp
      · exact ih el h
    · simp only [splitSep, hc, if_false]
      cases hs : splitSep cs with
      | nil => exact absurd hs (splitSep_ne_nil cs)
      | cons x xs =>
        rw [hs] at ih
        simp only [List.mem_cons]
        rintro el (rfl | h)
        · have := ih x (by simp)
          simp only [List.mem_cons, not_or]
          exact ⟨fun e => hc e.symm, this⟩
        · exact ih el (by simp [h])

theorem splitSep_joinSep (els : List (List Char)) (hne : els ≠ [])
    (h : ∀ el ∈ els, '/' ∉ el) : splitSep (joinSep els) = els := by
  induction els with
  | nil => exact absurd rfl hne
  | cons x rest ih =>
    cases rest with
    | nil => simpa [joinSep] using splitSep_noSep x (h x (by simp))
    | cons y rest =>
      simp only [joinSep]
      rw [splitSep_append_sep, splitSep_noSep x (h x (by simp)),
        ih (by simp) (fun el hel => h el (by simp [hel]))]
      simp

theorem cleanStep_kept (r : Bool) (out : List (List Char)) (el : List Char)
    (hk : Kept r out) (hel : '/' ∉ el) : Kept r (cleanStep r out el) := by
  unfold cleanStep
  by_cases h1 : el = []
  · simp [h1, hk]
  by_cases h2 : el = ['.']
  · simp [h2, hk]
  by_cases h3 : el = ['.', '.']
  · subst h3
    simp only [h1, h2, if_false, if_true]
    cases out with
    | nil => cases r <;> simp [Kept, IsElem]
    | cons top below =>
      simp only
      by_cases ht : top = ['.', '.']
      · subst ht
        cases r with
        | true => simpa using hk
        | false =>
          simp only [if_true, Bool.false_eq_true, if_false]
          refine ⟨by simp [IsElem], hk, fun _ => ⟨rfl, ?_⟩⟩
          intro x hx
          rcases List.mem_cons.1 hx with rfl | hx
          · rfl
          · exact (hk.2.2 rfl).2 x hx
      · simp only [ht, if_false]
        exact hk.2.1
  · simp only [h1, h2, h3, if_false]
    exact ⟨⟨h1, hel, h2⟩, hk, fun e => absurd e h3⟩

theorem foldl_cleanStep_kept (r : Bool) (els : List (List Char)) :
    ∀ out : List (List Char), Kept r out → (∀ el ∈ els, '/' ∉ el) →
      Kept r (els.foldl (cleanStep r) out) := by
  induction els with
  | nil => intro out hk _; simpa using hk
  | cons el els ih =>
    intro out hk h
    simp only [List.foldl_cons]
    exact ih _ (cleanStep_kept r out el hk (h el (by simp))) (fun x hx => h x (by simp [hx]))

theorem cleanElems_kept (p : List Char) : Kept (isRooted p) (cleanElems p) :=
  foldl_cleanStep_kept _ _ [] trivial (noSep_of_mem_splitSep p)

theorem cleanStep_push (r : Bool) (out : List (List Char)) (top : List Char)
    (hk : Kept r (top :: out)) : cleanStep r out top = top :: out := by
  obtain ⟨⟨h1, _, h2⟩, _, h3⟩ := hk
  unfold cleanStep
  by_cases h : top = ['.', '.']
  · obtain ⟨hr, hall⟩ := h3 h
    subst h
    subst hr
    cases out with
    | nil => simp
    | cons b below => simp [hall b (by simp)]
  · simp [h1, h2, h]

theorem foldl_cleanStep_reverse (r : Bool) (out : List (List Char)) (hk : Kept r out) :
    out.reverse.foldl (cleanStep r) [] = out := by
  induction out with
  | nil => simp
  | cons top below ih =>
    simp only [List.reverse_cons, List.foldl_append, List.foldl_cons, List.foldl_nil]
    rw [ih hk.2.1]
    exact cleanStep_push r below top hk

theorem isRooted_joinSep (x : List Char) (rest : List (List Char)) (hx : x ≠ []) (hs : '/' ∉ x) :
    isRooted (joinSep (x :: rest)) = false := by
  cases x with
  | nil => exact absurd rfl hx
  | cons c cs =>
    have hc : ¬ c = '/' := fun e => hs (by simp [e])
    cases rest <;> simp [joinSep, isRooted, hc]

theorem kept_mem (r : Bool) : ∀ (out : List (List Char)), Kept r out → ∀ el ∈ out, IsElem el
  | [], _, el, h => by simp at h
  | top :: below, hk, el, h => by
    rcases List.mem_cons.1 h with rfl | h
    · exact hk.1
    · exact kept_mem r below hk.2.1 el h

/-- Cleaning the path that `filepath.Clean` writes gives the same elements again. -/
theorem cleanElems_render (r : Bool) (out : List (List Char)) (hk : Kept r out) :
    isRooted (render r out) = r ∧ cleanElems (render r out) = out := by
  have hsep : ∀ el ∈ out.reverse, '/' ∉ el := fun el h =>
    (kept_mem r out hk el (List.mem_reverse.1 h)).2.1
  cases r with
  | true =>
    refine ⟨by simp [render, isRooted], ?_⟩
    simp only [cleanElems, render, if_true, isRooted, decide_True, splitSep, List.foldl_cons]
    by_cases ho : out = []
    · subst ho
      simp [joinSep, splitSep, cleanStep]
    · rw [splitSep_joinSep _ (by simpa using ho) hsep]
      simpa [cleanStep] using foldl_cleanStep_reverse true out hk
  | false =>
    by_cases ho : out = []
    · subst ho
      simp [render, isRooted, cleanElems, splitSep, cleanStep]
    · have hne : out.reverse ≠ [] := by simpa using ho
      obtain ⟨x, rest, hxr⟩ := List.exists_cons_of_ne_nil hne
      have hx : IsElem x := kept_mem false out hk x (List.mem_reverse.1 (by simp [hxr]))
      have hroot : isRooted (joinSep out.reverse) = false := by
        rw [hxr]
        exact isRooted_joinSep x rest hx.1 hx.2.1
      simp only [render, Bool.false_eq_true, if_false, ho, cleanElems, hroot]
      rw [splitSep_joinSep _ hne hsep]
      exact ⟨trivial, foldl_cleanStep_reverse false out hk⟩

/-! ## Joined paths and keys -/

theorem data_ne_nil_of_ne_empty (s : String) (h : s ≠ "") : s.data ≠ [] := by
  intro e
  apply h
  exact String.ext e

theorem validName_iff (name : String) :
    validName name = true ↔ name.data ≠ [] ∧ '/' ∉ name.data := by
  simp only [validName, Bool.and_eq_true, decide_eq_true_eq, Bool.not_eq_true',
    List.contains_eq_any_beq, List.any_eq_false, beq_iff_eq]
  constructor
  · rintro ⟨h1, h2⟩
    exact ⟨data_ne_nil_of_ne_empty name h1, fun hm => h2 _ hm rfl⟩
  · rintro ⟨h1, h2⟩
    refine ⟨fun e => h1 (by rw [e]), fun c hc e => h2 (by rw [e]; exact hc)⟩

/-- A name that ends in `.go` is a path element other than `.` and `..`. -/
theorem elem_of_hasSuffix_go (name : String) (h : HasSuffix name ".go" = true) :
    name.data ≠ [] ∧ name.data ≠ ['.'] ∧ name.data ≠ ['.', '.'] := by
  have h3 : 3 ≤ name.data.length := by
    unfold HasSuffix at h
    have hp := List.IsPrefix.length_le (List.isPrefixOf_iff_prefix.1 h)
    simpa using hp
  refine ⟨?_, ?_, ?_⟩ <;> intro e <;> rw [e] at h3 <;> simp at h3

/-- A name that does not start with a dot is other than `.` and `..`. -/
theorem elem_of_not_hasPrefix_dot (name : String) (h : HasPrefix name "." = false) :
    name.data ≠ ['.'] ∧ name.data ≠ ['.', '.'] := by
  unfold HasPrefix at h
  constructor <;> intro e <;> rw [e] at h <;> simp [List.isPrefixOf] at h

/-- The elements of `filepath.Join(dir, name)`, for a name that is a path element other
than `.` and `..`: those of `dir` and then `name`. -/
theorem cleanElems_join (dir name : String) (h1 : name.data ≠ []) (h2 : '/' ∉ name.data)
    (h3 : name.data ≠ ['.']) (h4 : name.data ≠ ['.', '.']) :
    isRooted (Join dir name).data = isRooted dir.data ∧
      cleanElems (Join dir name).data = name.data :: cleanElems dir.data := by
  have hstep : ∀ out, cleanStep (isRooted dir.data) out name.data = name.data :: out := by
    intro out
    simp [cleanStep, h1, h3, h4]
  by_cases hd : dir = ""
  · subst hd
    have hn : name ≠ "" := fun e => h1 (by rw [e])
    have hroot : isRooted name.data = false := by
      cases hnd : name.data with
      | nil => rfl
      | cons c cs =>
        have hc : ¬ c = '/' := fun e => h2 (by rw [hnd, e]; simp)
        simp [isRooted, hc]
    have hel : cleanElems name.data = [name.data] := by
      simp only [cleanElems, splitSep_noSep _ h2, List.foldl_cons, List.foldl_nil]
      simp [cleanStep, h1, h3, h4]
    have hk : Kept false [name.data] := ⟨⟨h1, h2, h3⟩, trivial, fun e => absurd e h4⟩
    have := cleanElems_render false [name.data] hk
    simp only [Join, ne_eq, not_true_eq_false, if_false, hn, not_false_eq_true, if_true, Clean,
      cleanChars, hroot, hel]
    simpa [cleanElems, splitSep, cleanStep, isRooted] using this
  · have hdd : dir.data ≠ [] := data_ne_nil_of_ne_empty dir hd
    have hdata : (dir ++ "/" ++ name).data = dir.data ++ '/' :: name.data := by
      simp [String.data_append]
    have hroot : isRooted (dir.data ++ '/' :: name.data) = isRooted dir.data := by
      cases hdc : dir.data with
      | nil => exact absurd hdc hdd
      | cons c cs => simp [isRooted]
    have hel : cleanElems (dir.data ++ '/' :: name.data) = name.data :: cleanElems dir.data := by
      simp only [cleanElems, hroot, splitSep_append_sep, splitSep_noSep _ h2, List.foldl_append,
        List.foldl_cons, List.foldl_nil]
      exact hstep _
    have hk : Kept (isRooted dir.data) (name.data :: cleanElems dir.data) :=
      ⟨⟨h1, h2, h3⟩, cleanElems_kept dir.data, fun e => absurd e h4⟩
    have := cleanElems_render (isRooted dir.data) (name.data :: cleanElems dir.data) hk
    simp only [Join, ne_eq, hd, not_false_eq_true, if_true, Clean, cleanChars, hdata, hroot, hel]
    exact this

/-- Two lists that agree after a separator which their last parts do not hold agree part
by part. -/
theorem append_sep_inj (s : Char) :
    ∀ (x y a b : List Char), s ∉ x → s ∉ y → x ++ s :: a = y ++ s :: b → x = y ∧ a = b
  | [], [], a, b, _, _, h => by simpa using h
  | [], c :: y, a, b, _, hy, h => by
    simp only [List.nil_append, List.cons_append, List.cons.injEq] at h
    exact absurd (by simp [h.1]) hy
  | c :: x, [], a, b, hx, _, h => by
    simp only [List.nil_append, List.cons_append, List.cons.injEq] at h
    exact absurd (by simp [h.1]) hx
  | c :: x, c' :: y, a, b, hx, hy, h => by
    simp only [List.cons_append, List.cons.injEq] at h
    have := append_sep_inj s x y a b (fun m => hx (by simp [m])) (fun m => hy (by simp [m])) h.2
    simp [h.1, this.1, this.2]

/-- A key `D + "#" + n` determines the directory and the package name when the name holds
no `#`. -/
theorem key_inj (D1 D2 n1 n2 : String) (h1 : '#' ∉ n1.data) (h2 : '#' ∉ n2.data)
    (h : D1 ++ "#" ++ n1 = D2 ++ "#" ++ n2) : D1 = D2 ∧ n1 = n2 := by
  have hd := congrArg String.data h
  simp only [String.data_append] at hd
  have hr := congrArg List.reverse hd
  have hs : ("#" : String).data = ['#'] := rfl
  simp only [hs, List.reverse_append, List.reverse_cons, List.reverse_nil, List.nil_append,
    List.append_assoc, List.singleton_append] at hr
  have := append_sep_inj '#' n1.data.reverse n2.data.reverse D1.data.reverse D2.data.reverse
    (by simpa using h1) (by simpa using h2) hr
  exact ⟨String.ext (List.reverse_injective this.2), String.ext (List.reverse_injective this.1)⟩

theorem key_name_inj (D n1 n2 : String) (h : D ++ "#" ++ n1 = D ++ "#" ++ n2) : n1 = n2 := by
  have hd := congrArg String.data h
  simp only [String.data_append, List.append_assoc] at hd
  exact String.ext (List.append_cancel_left (List.append_cancel_left hd))

/-! ## Maps -/

theorem GoMap.get_set {V : Type} (m : GoMap V) (k : String) (v : V) (k' : String) :
    GoMap.get (GoMap.set m k v) k' = if k = k' then some v else GoMap.get m k' := by
  induction m with
  | nil => simp [GoMap.set, GoMap.get]
  | cons kv m ih =>
    obtain ⟨k0, v0⟩ := kv
    by_cases h : k0 = k
    · subst h
      by_cases h' : k0 = k' <;> simp [GoMap.set, GoMap.get, h']
    · by_cases h' : k0 = k'
      · subst h'
        have : ¬ k = k0 := fun e => h e.symm
        simp [GoMap.set, GoMap.get, h, this]
      · simp [GoMap.set, GoMap.get, h, h', ih]

theorem GoMap.mem_keys_set {V : Type} (m : GoMap V) (k : String) (v : V) (k' : String) :
    k' ∈ GoMap.keys (GoMap.set m k v) ↔ k' = k ∨ k' ∈ GoMap.keys m := by
  induction m with
  | nil => simp [GoMap.set, GoMap.keys]
  | cons kv m ih =>
    obtain ⟨k0, v0⟩ := kv
    by_cases h : k0 = k
    · subst h
      simp [GoMap.set, GoMap.keys]
    · simp only [GoMap.keys] at ih
      simp only [GoMap.set, h, if_false, GoMap.keys, List.map_cons, List.mem_cons, ih]
      tauto

theorem GoMap.get_eq_none_iff {V : Type} (m : GoMap V) (k : String) :
    GoMap.get m k = none ↔ k ∉ GoMap.keys m := by
  induction m with
  | nil => simp [GoMap.get, GoMap.keys]
  | cons kv m ih =>
    obtain ⟨k0, v0⟩ := kv
    simp only [GoMap.keys] at ih
    by_cases h : k0 = k
    · simp [GoMap.get, GoMap.keys, h]
    · have : ¬ k = k0 := fun e => h e.symm
      simp [GoMap.get, GoMap.keys, h, this, ih]

theorem GoMap.mem_keys_iff {V : Type} (m : GoMap V) (k : String) :
    k ∈ GoMap.keys m ↔ ∃ v, GoMap.get m k = some v := by
  have h := GoMap.get_eq_none_iff m k
  cases hg : GoMap.get m k with
  | none => simpa [hg] using h
  | some v =>
    rw [hg] at h
    simp only [reduceCtorEq, false_iff, not_not] at h
    simp [h]

theorem GoMap.nodup_keys_set {V : Type} (m : GoMap V) (k : String) (v : V)
    (h : (GoMap.keys m).Nodup) : (GoMap.keys (GoMap.set m k v)).Nodup := by
  induction m with
  | nil => simp [GoMap.set, GoMap.keys]
  | cons kv m ih =>
    obtain ⟨k0, v0⟩ := kv
    simp only [GoMap.keys, List.map_cons, List.nodup_cons] at h
    by_cases hk : k0 = k
    · subst hk
      simpa [GoMap.set, GoMap.keys] using h
    · have ih' := ih h.2
      have hm := GoMap.mem_keys_set m k v k0
      simp only [GoMap.keys] at ih' hm
      simp only [GoMap.set, hk, if_false, GoMap.keys, List.map_cons, List.nodup_cons, ih',
        and_true, hm]
      tauto

theorem GoMap.mem_keys_mergeInto {V : Type} (d : GoMap V) :
    ∀ (pkgs : GoMap V) (k : String),
      k ∈ GoMap.keys (GoMap.mergeInto pkgs d) ↔ k ∈ GoMap.keys pkgs ∨ k ∈ GoMap.keys d := by
  induction d with
  | nil => intro pkgs k; simp [GoMap.mergeInto, GoMap.keys]
  | cons kv d ih =>
    intro pkgs k
    have h := ih (GoMap.set pkgs kv.1 kv.2) k
    simp only [GoMap.mergeInto, List.foldl_cons] at h ⊢
    rw [h, GoMap.mem_keys_set]
    simp only [GoMap.keys, List.map_cons, List.mem_cons]
    tauto

theorem GoMap.nodup_keys_mergeInto {V : Type} (d : GoMap V) :
    ∀ pkgs : GoMap V, (GoMap.keys pkgs).Nodup → (GoMap.keys (GoMap.mergeInto pkgs d)).Nodup := by
  induction d with
  | nil => intro pkgs h; simpa [GoMap.mergeInto] using h
  | cons kv d ih =>
    intro pkgs h
    have := ih (GoMap.set pkgs kv.1 kv.2) (GoMap.nodup_keys_set pkgs kv.1 kv.2 h)
    simpa [GoMap.mergeInto] using this

/-- A merge reads as the merged map on its keys and as the old map elsewhere. -/
theorem GoMap.get_mergeInto {V : Type} (d : GoMap V) :
    ∀ (pkgs : GoMap V) (k : String), (GoMap.keys d).Nodup →
      GoMap.get (GoMap.mergeInto pkgs d) k =
        if k ∈ GoMap.keys d then GoMap.get d k else GoMap.get pkgs k := by
  induction d with
  | nil => intro pkgs k _; simp [GoMap.mergeInto, GoMap.keys]
  | cons kv d ih =>
    intro pkgs k hn
    obtain ⟨k0, v0⟩ := kv
    simp only [GoMap.keys, List.map_cons, List.nodup_cons] at hn
    have h := ih (GoMap.set pkgs k0 v0) k hn.2
    simp only [GoMap.mergeInto, List.foldl_cons] at h ⊢
    rw [h, GoMap.get_set]
    simp only [GoMap.keys, List.map_cons, List.mem_cons, GoMap.get]
    by_cases hk : k0 = k
    · subst hk
      simp [hn.1]
    · have : ¬ k = k0 := fun e => hk e.symm
      rw [if_neg hk]
      simp only [this, false_or, hk, if_false]

theorem get_addFile (pkgs : GoMap Package) (dir fname : String) (f : AstFile) (k : String) :
    GoMap.get (addFile pkgs dir fname f) k =
      if dir ++ "#" ++ f.Name = k then
        some (match GoMap.get pkgs k with
          | some pkg => { pkg with Files := GoMap.set pkg.Files fname f }
          | none => { Name := k, Files := GoMap.set [] fname f })
      else GoMap.get pkgs k := by
  simp only [addFile]
  by_cases h : dir ++ "#" ++ f.Name = k
  · subst h
    split <;> simp [GoMap.get_set, *]
  · split <;> simp [GoMap.get_set, h]

theorem mem_keys_addFile (pkgs : GoMap Package) (dir fname : String) (f : AstFile) (k : String) :
    k ∈ GoMap.keys (addFile pkgs dir fname f) ↔ k = dir ++ "#" ++ f.Name ∨ k ∈ GoMap.keys pkgs := by
  simp only [addFile]
  split <;> simp [GoMap.mem_keys_set]

theorem nodup_keys_addFile (pkgs : GoMap Package) (dir fname : String) (f : AstFile)
    (h : (GoMap.keys pkgs).Nodup) : (GoMap.keys (addFile pkgs dir fname f)).Nodup := by
  simp only [addFile]
  split <;> simp [GoMap.nodup_keys_set, h]

/-! ## The branches of the loop -/

theorem parseDirLoop_nil (dir : String) (mode : Mode) (pkgs : GoMap Package) :
    parseDirLoop dir mode .nil pkgs = { pkgs := some pkgs, err := none } := by
  simp [parseDirLoop]

theorem parseDirLoop_traversed_err (dir : String) (mode : Mode) (fi : DirEntry)
    (parsed : Mode → Except GoError AstFile) (listed : Listing) (rest : Entries)
    (pkgs : GoMap Package) (err : GoError) (h : fi.traversed = true)
    (hr : (parseDirRecursive (Join dir fi.Name) mode listed).err = some err) :
    parseDirLoop dir mode (.cons fi parsed listed rest) pkgs =
      { pkgs := some pkgs, err := some err } := by
  rcases hd : parseDirRecursive (Join dir fi.Name) mode listed with ⟨d, e⟩
  rw [hd] at hr
  simp only at hr
  subst hr
  simp only [DirEntry.traversed] at h
  simp [parseDirLoop, h, hd]

theorem parseDirLoop_traversed_ok (dir : String) (mode : Mode) (fi : DirEntry)
    (parsed : Mode → Except GoError AstFile) (listed : Listing) (rest : Entries)
    (pkgs : GoMap Package) (h : fi.traversed = true)
    (hr : (parseDirRecursive (Join dir fi.Name) mode listed).err = none) :
    parseDirLoop dir mode (.cons fi parsed listed rest) pkgs =
      parseDirLoop dir mode rest
        (GoMap.mergeInto pkgs ((parseDirRecursive (Join dir fi.Name) mode listed).pkgs.getD [])) := by
  rcases hd : parseDirRecursive (Join dir fi.Name) mode listed with ⟨d, e⟩
  rw [hd] at hr
  simp only at hr
  subst hr
  simp only [DirEntry.traversed] at h
  simp [parseDirLoop, h, hd]

theorem parseDirLoop_parsed_err (dir : String) (mode : Mode) (fi : DirEntry)
    (parsed : Mode → Except GoError AstFile) (listed : Listing) (rest : Entries)
    (pkgs : GoMap Package) (err : GoError) (h : fi.parsedEntry = true)
    (hr : parsed mode = .error err) :
    parseDirLoop dir mode (.cons fi parsed listed rest) pkgs =
      { pkgs := some pkgs, err := some err } := by
  simp only [DirEntry.parsedEntry, DirEntry.traversed, Bool.and_eq_true, Bool.not_eq_true'] at h
  simp [parseDirLoop, h.1, h.2, hr]

theorem parseDirLoop_parsed_ok (dir : String) (mode : Mode) (fi : DirEntry)
    (parsed : Mode → Except GoError AstFile) (listed : Listing) (rest : Entries)
    (pkgs : GoMap Package) (f : AstFile) (h : fi.parsedEntry = true)
    (hr : parsed mode = .ok f) :
    parseDirLoop dir mode (.cons fi parsed listed rest) pkgs =
      parseDirLoop dir mode rest (addFile pkgs dir (Join dir fi.Name) f) := by
  simp only [DirEntry.parsedEntry, DirEntry.traversed, Bool.and_eq_true, Bool.not_eq_true'] at h
  simp [parseDirLoop, h.1, h.2, hr]

theorem parseDirLoop_ignored (dir : String) (mode : Mode) (fi : DirEntry)
    (parsed : Mode → Except GoError AstFile) (listed : Listing) (rest : Entries)
    (pkgs : GoMap Package) (h : fi.ignored = true) :
    parseDirLoop dir mode (.cons fi parsed listed rest) pkgs = parseDirLoop dir mode rest pkgs := by
  simp only [DirEntry.ignored, DirEntry.traversed, Bool.and_eq_true, Bool.not_eq_true'] at h
  simp [parseDirLoop, h.1, h.2]

/-- An entry is of exactly one of three kinds. -/
theorem DirEntry.kind (fi : DirEntry) :
    fi.traversed = true ∨ fi.parsedEntry = true ∨ fi.ignored = true := by
  simp only [DirEntry.parsedEntry, DirEntry.ignored]
  cases fi.traversed <;> cases HasSuffix fi.Name ".go" <;> simp

/-! ## The directories of a traversal -/

theorem Entries.wellFormed_cons (fi : DirEntry) (parsed : Mode → Except GoError AstFile)
    (listed : Listing) (rest : Entries) :
    Entries.wellFormed (.cons fi parsed listed rest) = true ↔
      validName fi.Name = true ∧ fi.Name ∉ Entries.names rest ∧
        Listing.wellFormed listed = true ∧ Entries.wellFormed rest = true := by
  simp only [Entries.wellFormed, Bool.and_eq_true, Bool.not_eq_true', List.contains_eq_any_beq,
    List.any_eq_false, beq_iff_eq]
  constructor
  · rintro ⟨⟨⟨h1, h2⟩, h3⟩, h4⟩
    exact ⟨h1, fun hm => h2 _ hm rfl, h3, h4⟩
  · rintro ⟨h1, h2, h3, h4⟩
    exact ⟨⟨⟨h1, fun c hc e => h2 (by rw [e]; exact hc)⟩, h3⟩, h4⟩

theorem Entries.noHash_cons (mode : Mode) (fi : DirEntry)
    (parsed : Mode → Except GoError AstFile) (listed : Listing) (rest : Entries) :
    Entries.noHash mode (.cons fi parsed listed rest) = true ↔
      (∀ f, parsed mode = .ok f → '#' ∉ f.Name.data) ∧
        Listing.noHash mode listed = true ∧ Entries.noHash mode rest = true := by
  simp only [Entries.noHash, Bool.and_eq_true]
  cases hp : parsed mode with
  | error e => simp
  | ok f =>
    simp only [Bool.not_eq_true', List.contains_eq_any_beq, List.any_eq_false, beq_iff_eq,
      Except.ok.injEq, forall_eq']
    constructor
    · rintro ⟨⟨h1, h2⟩, h3⟩
      exact ⟨fun hm => h1 _ hm rfl, h2, h3⟩
    · rintro ⟨h1, h2, h3⟩
      exact ⟨⟨fun c hc e => h1 (by rw [e]; exact hc), h2⟩, h3⟩

theorem cleanElems_join_traversed (dir : String) (fi : DirEntry) (ht : fi.traversed = true)
    (hv : validName fi.Name = true) :
    cleanElems (Join dir fi.Name).data = fi.Name.data :: cleanElems dir.data := by
  simp only [DirEntry.traversed, Bool.and_eq_true, Bool.not_eq_true'] at ht
  obtain ⟨h1, h2⟩ := (validName_iff fi.Name).1 hv
  obtain ⟨h3, h4⟩ := elem_of_not_hasPrefix_dot fi.Name ht.2
  exact (cleanElems_join dir fi.Name h1 h2 h3 h4).2

theorem cleanElems_join_parsed (dir : String) (fi : DirEntry) (ht : fi.parsedEntry = true)
    (hv : validName fi.Name = true) :
    cleanElems (Join dir fi.Name).data = fi.Name.data :: cleanElems dir.data := by
  simp only [DirEntry.parsedEntry, Bool.and_eq_true, Bool.not_eq_true'] at ht
  obtain ⟨_, h2⟩ := (validName_iff fi.Name).1 hv
  obtain ⟨h1, h3, h4⟩ := elem_of_hasSuffix_go fi.Name ht.2
  exact (cleanElems_join dir fi.Name h1 h2 h3 h4).2

mutual
/-- The path of a directory of the traversal of `dir` has the elements of `dir` and then
the names on the way down. -/
theorem reached_elems : ∀ (l : Listing) (dir : String), Listing.wellFormed l = true →
    ∀ D es, (D, es) ∈ Listing.reached dir l →
      ∃ ns, cleanElems D.data = ns ++ cleanElems dir.data
  | .fail _, dir, _, D, es, h => by simp [Listing.reached] at h
  | .ok infos, dir, hw, D, es, h => by
    simp only [Listing.reached, List.mem_cons, Prod.mk.injEq] at h
    rcases h with ⟨rfl, _⟩ | h
    · exact ⟨[], by simp⟩
    · obtain ⟨ns, c, _, hc⟩ := reachedBelow_elems infos dir (by simpa [Listing.wellFormed] using hw) D es h
      exact ⟨ns ++ [c.data], by simp [hc]⟩
/-- The path of a directory below `dir` goes through the name of an entry of `dir`. -/
theorem reachedBelow_elems : ∀ (infos : Entries) (dir : String),
    Entries.wellFormed infos = true → ∀ D es, (D, es) ∈ Entries.reachedBelow dir infos →
      ∃ ns c, c ∈ Entries.names infos ∧ cleanElems D.data = ns ++ c.data :: cleanElems dir.data
  | .nil, dir, _, D, es, h => by simp [Entries.reachedBelow] at h
  | .cons fi parsed listed rest, dir, hw, D, es, h => by
    obtain ⟨hv, _, hl, hr⟩ := (Entries.wellFormed_cons fi parsed listed rest).1 hw
    simp only [Entries.reachedBelow, List.mem_append] at h
    rcases h with h | h
    · by_cases ht : fi.traversed = true
      · simp only [ht, if_true] at h
        obtain ⟨ns, hns⟩ := reached_elems listed (Join dir fi.Name) hl D es h
        rw [cleanElems_join_traversed dir fi ht hv] at hns
        exact ⟨ns, fi.Name, by simp [Entries.names], hns⟩
      · simp [ht] at h
    · obtain ⟨ns, c, hc, hns⟩ := reachedBelow_elems rest dir hr D es h
      exact ⟨ns, c, by simp [Entries.names, hc], hns⟩
end

mutual
theorem reached_sub : ∀ (l : Listing) (dir : String) (mode : Mode),
    Listing.wellFormed l = true → Listing.noHash mode l = true →
    ∀ D es, (D, es) ∈ Listing.reached dir l →
      Entries.wellFormed es = true ∧ Entries.noHash mode es = true
  | .fail _, dir, mode, _, _, D, es, h => by simp [Listing.reached] at h
  | .ok infos, dir, mode, hw, hn, D, es, h => by
    simp only [Listing.wellFormed, Listing.noHash] at hw hn
    simp only [Listing.reached, List.mem_cons, Prod.mk.injEq] at h
    rcases h with ⟨_, rfl⟩ | h
    · exact ⟨hw, hn⟩
    · exact reachedBelow_sub infos dir mode hw hn D es h
theorem reachedBelow_sub : ∀ (infos : Entries) (dir : String) (mode : Mode),
    Entries.wellFormed infos = true → Entries.noHash mode infos = true →
    ∀ D es, (D, es) ∈ Entries.reachedBelow dir infos →
      Entries.wellFormed es = true ∧ Entries.noHash mode es = true
  | .nil, dir, mode, _, _, D, es, h => by simp [Entries.reachedBelow] at h
  | .cons fi parsed listed rest, dir, mode, hw, hn, D, es, h => by
    obtain ⟨_, _, hl, hr⟩ := (Entries.wellFormed_cons fi parsed listed rest).1 hw
    obtain ⟨_, hnl, hnr⟩ := (Entries.noHash_cons mode fi parsed listed rest).1 hn
    simp only [Entries.reachedBelow, List.mem_append] at h
    rcases h with h | h
    · by_cases ht : fi.traversed = true
      · simp only [ht, if_true] at h
        exact reached_sub listed (Join dir fi.Name) mode hl hnl D es h
      · simp [ht] at h
    · exact reachedBelow_sub rest dir mode hr hnr D es h
end

/-- No directory below `dir` has the path `dir`. -/
theorem reachedBelow_ne_dir (infos : Entries) (dir : String)
    (hw : Entries.wellFormed infos = true) (es : Entries) :
    (dir, es) ∉ Entries.reachedBelow dir infos := by
  intro h
  obtain ⟨ns, c, _, hc⟩ := reachedBelow_elems infos dir hw dir es h
  have := congrArg List.length hc
  simp at this
  omega

/-- The directories below two entries of one directory have different paths. -/
theorem reached_disjoint (dir : String) (fi : DirEntry) (listed : Listing) (rest : Entries)
    (ht : fi.traversed = true) (hv : validName fi.Name = true)
    (hnot : fi.Name ∉ Entries.names rest) (hl : Listing.wellFormed listed = true)
    (hr : Entries.wellFormed rest = true) (D : String) (es1 es2 : Entries)
    (h1 : (D, es1) ∈ Listing.reached (Join dir fi.Name) listed)
    (h2 : (D, es2) ∈ Entries.reachedBelow dir rest) : False := by
  obtain ⟨ns1, e1⟩ := reached_elems listed (Join dir fi.Name) hl D es1 h1
  obtain ⟨ns2, c, hc, e2⟩ := reachedBelow_elems rest dir hr D es2 h2
  rw [cleanElems_join_traversed dir fi ht hv] at e1
  rw [e1] at e2
  have e3 : (ns1 ++ [fi.Name.data]) ++ cleanElems dir.data =
      (ns2 ++ [c.data]) ++ cleanElems dir.data := by simpa using e2
  have e4 := List.append_cancel_right e3
  have e5 : fi.Name.data = c.data := by
    have := congrArg List.getLast? e4
    simpa using this
  exact hnot (by rw [String.ext e5]; exact hc)

theorem mem_map_fst_iff (l : List (String × Entries)) (D : String) :
    D ∈ l.map Prod.fst ↔ ∃ es, (D, es) ∈ l := by
  simp [List.mem_map]

mutual
/-- The directories of a traversal of a well-formed tree have pairwise different paths. -/
theorem reached_nodup : ∀ (l : Listing) (dir : String), Listing.wellFormed l = true →
    ((Listing.reached dir l).map Prod.fst).Nodup
  | .fail _, dir, _ => by simp [Listing.reached]
  | .ok infos, dir, hw => by
    have hw' : Entries.wellFormed infos = true := by simpa [Listing.wellFormed] using hw
    simp only [Listing.reached, List.map_cons, List.nodup_cons]
    refine ⟨?_, reachedBelow_nodup infos dir hw'⟩
    intro hm
    obtain ⟨es, hes⟩ := (mem_map_fst_iff _ dir).1 hm
    exact reachedBelow_ne_dir infos dir hw' es hes
theorem reachedBelow_nodup : ∀ (infos : Entries) (dir : String),
    Entries.wellFormed infos = true → ((Entries.reachedBelow dir infos).map Prod.fst).Nodup
  | .nil, dir, _ => by simp [Entries.reachedBelow]
  | .cons fi parsed listed rest, dir, hw => by
    obtain ⟨hv, hnot, hl, hr⟩ := (Entries.wellFormed_cons fi parsed listed rest).1 hw
    simp only [Entries.reachedBelow, List.map_append]
    by_cases ht : fi.traversed = true
    · simp only [ht, if_true]
      refine List.Nodup.append (reached_nodup listed (Join dir fi.Name) hl)
        (reachedBelow_nodup rest dir hr) ?_
      intro D h1 h2
      obtain ⟨es1, h1⟩ := (mem_map_fst_iff _ D).1 h1
      obtain ⟨es2, h2⟩ := (mem_map_fst_iff _ D).1 h2
      exact reached_disjoint dir fi listed rest ht hv hnot hl hr D es1 es2 h1 h2
    · simpa [ht] using reachedBelow_nodup rest dir hr
end

/-! ## The files a directory declares -/

theorem declared_noHash (dir : String) (mode : Mode) :
    ∀ (infos : Entries), Entries.noHash mode infos = true →
      ∀ q f, (q, f) ∈ Entries.declared dir mode infos → '#' ∉ f.Name.data
  | .nil, _, q, f, h => by simp [Entries.declared] at h
  | .cons fi parsed listed rest, hn, q, f, h => by
    obtain ⟨hp, _, hnr⟩ := (Entries.noHash_cons mode fi parsed listed rest).1 hn
    simp only [Entries.declared, List.mem_append] at h
    rcases h with h | h
    · by_cases ht : fi.parsedEntry = true
      · cases hpm : parsed mode with
        | error e => simp [ht, hpm] at h
        | ok f0 =>
          simp only [ht, if_true, hpm, List.mem_singleton, Prod.mk.injEq] at h
          rw [h.2]
          exact hp f0 hpm
      · simp [ht] at h
    · exact declared_noHash dir mode rest hnr q f h

theorem declared_elems (dir : String) (mode : Mode) :
    ∀ (infos : Entries), Entries.wellFormed infos = true →
      ∀ q f, (q, f) ∈ Entries.declared dir mode infos →
        ∃ c, c ∈ Entries.names infos ∧ cleanElems q.data = c.data :: cleanElems dir.data
  | .nil, _, q, f, h => by simp [Entries.declared] at h
  | .cons fi parsed listed rest, hw, q, f, h => by
    obtain ⟨hv, _, _, hr⟩ := (Entries.wellFormed_cons fi parsed listed rest).1 hw
    simp only [Entries.declared, List.mem_append] at h
    rcases h with h | h
    · by_cases ht : fi.parsedEntry = true
      · cases hpm : parsed mode with
        | error e => simp [ht, hpm] at h
        | ok f0 =>
          simp only [ht, if_true, hpm, List.mem_singleton, Prod.mk.injEq] at h
          rw [h.1]
          exact ⟨fi.Name, by simp [Entries.names], cleanElems_join_parsed dir fi ht hv⟩
      · simp [ht] at h
    · obtain ⟨c, hc, e⟩ := declared_elems dir mode rest hr q f h
      exact ⟨c, by simp [Entries.names, hc], e⟩

/-- The files declared in one directory have pairwise different paths. -/
theorem declared_nodup (dir : String) (mode : Mode) :
    ∀ (infos : Entries), Entries.wellFormed infos = true →
      ((Entries.declared dir mode infos).map Prod.fst).Nodup
  | .nil, _ => by simp [Entries.declared]
  | .cons fi parsed listed rest, hw => by
    obtain ⟨hv, hnot, _, hr⟩ := (Entries.wellFormed_cons fi parsed listed rest).1 hw
    have ih := declared_nodup dir mode rest hr
    simp only [Entries.declared, List.map_append]
    by_cases ht : fi.parsedEntry = true
    · cases hpm : parsed mode with
      | error e => simpa [ht, hpm] using ih
      | ok f0 =>
        simp only [ht, if_true, List.map_cons, List.map_nil, List.singleton_append,
          List.nodup_cons, ih, and_true, List.mem_map, Prod.exists, exists_and_right,
          exists_eq_right, not_exists]
        intro f hf
        obtain ⟨c, hc, e⟩ := declared_elems dir mode rest hr _ f hf
        rw [cleanElems_join_parsed dir fi ht hv] at e
        simp only [List.cons.injEq, and_true] at e
        exact hnot (by rw [String.ext e]; exact hc)
    · simpa [ht] using ih

/-! ## The keys of the package set -/

theorem keyFrom_below {dir : String} {mode : Mode} {infos : Entries} {k : String}
    (h : KeyFrom (Entries.reachedBelow dir infos) mode k) :
    KeyFrom (Listing.reached dir (.ok infos)) mode k := by
  obtain ⟨D, es, q, f, h1, h2, h3⟩ := h
  exact ⟨D, es, q, f, by simp [Listing.reached, h1], h2, h3⟩

theorem keyFrom_reached {dir : String} {mode : Mode} {infos : Entries} {k : String}
    (h : KeyFrom (Listing.reached dir (.ok infos)) mode k) :
    (∃ q f, (q, f) ∈ Entries.declared dir mode infos ∧ k = dir ++ "#" ++ f.Name) ∨
      KeyFrom (Entries.reachedBelow dir infos) mode k := by
  obtain ⟨D, es, q, f, h1, h2, h3⟩ := h
  simp only [Listing.reached, List.mem_cons, Prod.mk.injEq] at h1
  rcases h1 with ⟨rfl, rfl⟩ | h1
  · exact Or.inl ⟨q, f, h2, h3⟩
  · exact Or.inr ⟨D, es, q, f, h1, h2, h3⟩

theorem keyFrom_here {dir : String} {mode : Mode} {infos : Entries} {k : String}
    (h : ∃ q f, (q, f) ∈ Entries.declared dir mode infos ∧ k = dir ++ "#" ++ f.Name) :
    KeyFrom (Listing.reached dir (.ok infos)) mode k := by
  obtain ⟨q, f, h2, h3⟩ := h
  exact ⟨dir, infos, q, f, by simp [Listing.reached], h2, h3⟩

theorem keyFrom_head (dir : String) (mode : Mode) (fi : DirEntry)
    (parsed : Mode → Except GoError AstFile) (listed : Listing) (rest : Entries) (f : AstFile)
    (ht : fi.parsedEntry = true) (hp : parsed mode = .ok f) :
    KeyFrom (Listing.reached dir (.ok (.cons fi parsed listed rest))) mode
      (dir ++ "#" ++ f.Name) :=
  keyFrom_here ⟨Join dir fi.Name, f, by simp [Entries.declared, ht, hp], rfl⟩

theorem keyFrom_sub (dir : String) (mode : Mode) (fi : DirEntry)
    (parsed : Mode → Except GoError AstFile) (listed : Listing) (rest : Entries) (k : String)
    (ht : fi.traversed = true) (h : KeyFrom (Listing.reached (Join dir fi.Name) listed) mode k) :
    KeyFrom (Entries.reachedBelow dir (.cons fi parsed listed rest)) mode k := by
  obtain ⟨D, es, q, f, h1, h2, h3⟩ := h
  exact ⟨D, es, q, f, by simp [Entries.reachedBelow, ht, h1], h2, h3⟩

theorem keyFrom_below_rest (dir : String) (mode : Mode) (fi : DirEntry)
    (parsed : Mode → Except GoError AstFile) (listed : Listing) (rest : Entries) (k : String)
    (h : KeyFrom (Entries.reachedBelow dir rest) mode k) :
    KeyFrom (Entries.reachedBelow dir (.cons fi parsed listed rest)) mode k := by
  obtain ⟨D, es, q, f, h1, h2, h3⟩ := h
  exact ⟨D, es, q, f, by simp [Entries.reachedBelow, h1], h2, h3⟩

theorem keyFrom_rest (dir : String) (mode : Mode) (fi : DirEntry)
    (parsed : Mode → Except GoError AstFile) (listed : Listing) (rest : Entries) (k : String)
    (h : KeyFrom (Listing.reached dir (.ok rest)) mode k) :
    KeyFrom (Listing.reached dir (.ok (.cons fi parsed listed rest))) mode k := by
  rcases keyFrom_reached h with ⟨q, f, h2, h3⟩ | h
  · exact keyFrom_here ⟨q, f, by simp [Entries.declared, h2], h3⟩
  · exact keyFrom_below (keyFrom_below_rest dir mode fi parsed listed rest k h)

mutual
/-- Every key of the package set of a walk, complete or cut short by an error, is the key
of a directory of the traversal and of a package declared directly in it. -/
theorem parseDirRecursive_keys (mode : Mode) : ∀ (l : Listing) (dir : String) (k : String),
    k ∈ GoMap.keys ((parseDirRecursive dir mode l).pkgs.getD []) →
      KeyFrom (Listing.reached dir l) mode k
  | .fail _, dir, k, h => by simp [parseDirRecursive, GoMap.keys] at h
  | .ok infos, dir, k, h => by
    simp only [parseDirRecursive] at h
    rcases parseDirLoop_keys mode infos dir [] k h with h | h
    · simp [GoMap.keys] at h
    · exact h
/-- The keys after the loop are those before it and keys of the traversal. -/
theorem parseDirLoop_keys (mode : Mode) :
    ∀ (infos : Entries) (dir : String) (pkgs : GoMap Package) (k : String),
      k ∈ GoMap.keys ((parseDirLoop dir mode infos pkgs).pkgs.getD []) →
        k ∈ GoMap.keys pkgs ∨ KeyFrom (Listing.reached dir (.ok infos)) mode k
  | .nil, dir, pkgs, k, h => by
    left
    simpa [parseDirLoop_nil] using h
  | .cons fi parsed listed rest, dir, pkgs, k, h => by
    rcases fi.kind with hk | hk | hk
    · cases he : (parseDirRecursive (Join dir fi.Name) mode listed).err with
      | some err =>
        rw [parseDirLoop_traversed_err dir mode fi parsed listed rest pkgs err hk he] at h
        left
        simpa using h
      | none =>
        rw [parseDirLoop_traversed_ok dir mode fi parsed listed rest pkgs hk he] at h
        rcases parseDirLoop_keys mode rest dir _ k h with h | h
        · rcases (GoMap.mem_keys_mergeInto _ _ k).1 h with h | h
          · exact Or.inl h
          · right
            exact keyFrom_below (keyFrom_sub dir mode fi parsed listed rest k hk
              (parseDirRecursive_keys mode listed (Join dir fi.Name) k h))
        · exact Or.inr (keyFrom_rest dir mode fi parsed listed rest k h)
    · cases hp : parsed mode with
      | error err =>
        rw [parseDirLoop_parsed_err dir mode fi parsed listed rest pkgs err hk hp] at h
        left
        simpa using h
      | ok f =>
        rw [parseDirLoop_parsed_ok dir mode fi parsed listed rest pkgs f hk hp] at h
        rcases parseDirLoop_keys mode rest dir _ k h with h | h
        · rcases (mem_keys_addFile _ _ _ _ k).1 h with h | h
          · right
            rw [h]
            exact keyFrom_head dir mode fi parsed listed rest f hk hp
          · exact Or.inl h
        · exact Or.inr (keyFrom_rest dir mode fi parsed listed rest k h)
    · rw [parseDirLoop_ignored dir mode fi parsed listed rest pkgs hk] at h
      rcases parseDirLoop_keys mode rest dir _ k h with h | h
      · exact Or.inl h
      · exact Or.inr (keyFrom_rest dir mode fi parsed listed rest k h)
end

mutual
/-- The package set of a walk holds every key once. -/
theorem parseDirRecursive_nodup (mode : Mode) : ∀ (l : Listing) (dir : String),
    (GoMap.keys ((parseDirRecursive dir mode l).pkgs.getD [])).Nodup
  | .fail _, dir => by simp [parseDirRecursive, GoMap.keys]
  | .ok infos, dir => by
    simp only [parseDirRecursive]
    exact parseDirLoop_nodup mode infos dir [] (by simp [GoMap.keys])
theorem parseDirLoop_nodup (mode : Mode) :
    ∀ (infos : Entries) (dir : String) (pkgs : GoMap Package), (GoMap.keys pkgs).Nodup →
      (GoMap.keys ((parseDirLoop dir mode infos pkgs).pkgs.getD [])).Nodup
  | .nil, dir, pkgs, h => by simpa [parseDirLoop_nil] using h
  | .cons fi parsed listed rest, dir, pkgs, h => by
    rcases fi.kind with hk | hk | hk
    · cases he : (parseDirRecursive (Join dir fi.Name) mode listed).err with
      | some err =>
        rw [parseDirLoop_traversed_err dir mode fi parsed listed rest pkgs err hk he]
        simpa using h
      | none =>
        rw [parseDirLoop_traversed_ok dir mode fi parsed listed rest pkgs hk he]
        exact parseDirLoop_nodup mode rest dir _ (GoMap.nodup_keys_mergeInto _ _ h)
    · cases hp : parsed mode with
      | error err =>
        rw [parseDirLoop_parsed_err dir mode fi parsed listed rest pkgs err hk hp]
        simpa using h
      | ok f =>
        rw [parseDirLoop_parsed_ok dir mode fi parsed listed rest pkgs f hk hp]
        exact parseDirLoop_nodup mode rest dir _ (nodup_keys_addFile _ _ _ _ h)
    · rw [parseDirLoop_ignored dir mode fi parsed listed rest pkgs hk]
      exact parseDirLoop_nodup mode rest dir _ h
end

/-- A key of the directories below an entry is not a key of the directories below the
entries after it, nor a key of the directory itself. -/
theorem keyFrom_disjoint (dir : String) (mode : Mode) (fi : DirEntry)
    (parsed : Mode → Except GoError AstFile) (listed : Listing) (rest : Entries)
    (hw : Entries.wellFormed (.cons fi parsed listed rest) = true)
    (hn : Entries.noHash mode (.cons fi parsed listed rest) = true)
    (ht : fi.traversed = true) (k : String)
    (h1 : KeyFrom (Listing.reached (Join dir fi.Name) listed) mode k)
    (h2 : KeyFrom (Entries.reachedBelow dir rest) mode k) : False := by
  obtain ⟨hv, hnot, hl, hr⟩ := (Entries.wellFormed_cons fi parsed listed rest).1 hw
  obtain ⟨_, hnl, hnr⟩ := (Entries.noHash_cons mode fi parsed listed rest).1 hn
  obtain ⟨D1, es1, q1, f1, a1, b1, c1⟩ := h1
  obtain ⟨D2, es2, q2, f2, a2, b2, c2⟩ := h2
  have n1 := declared_noHash D1 mode es1
    (reached_sub listed (Join dir fi.Name) mode hl hnl D1 es1 a1).2 q1 f1 b1
  have n2 := declared_noHash D2 mode es2 (reachedBelow_sub rest dir mode hr hnr D2 es2 a2).2 q2 f2 b2
  obtain ⟨e, _⟩ := key_inj D1 D2 f1.Name f2.Name n1 n2 (c1 ▸ c2)
  subst e
  exact reached_disjoint dir fi listed rest ht hv hnot hl hr D1 es1 es2 a1 a2

/-- A key of the directory itself is not a key of a directory below it. -/
theorem keyFrom_not_below (dir : String) (mode : Mode) (infos : Entries)
    (hw : Entries.wellFormed infos = true) (hn : Entries.noHash mode infos = true)
    (n : String) (hno : '#' ∉ n.data)
    (h : KeyFrom (Entries.reachedBelow dir infos) mode (dir ++ "#" ++ n)) : False := by
  obtain ⟨D, es, q, f, a, b, c⟩ := h
  have nf := declared_noHash D mode es (reachedBelow_sub infos dir mode hw hn D es a).2 q f b
  obtain ⟨e, _⟩ := key_inj dir D n f.Name hno nf c
  subst e
  exact reachedBelow_ne_dir infos dir hw es a

/-! ## Merges -/

theorem overwritten_traversed_err (dir : String) (mode : Mode) (fi : DirEntry)
    (parsed : Mode → Except GoError AstFile) (listed : Listing) (rest : Entries)
    (pkgs : GoMap Package) (err : GoError) (h : fi.traversed = true)
    (hr : (parseDirRecursive (Join dir fi.Name) mode listed).err = some err) :
    Entries.overwritten dir mode (.cons fi parsed listed rest) pkgs =
      Listing.overwritten (Join dir fi.Name) mode listed := by
  rcases hd : parseDirRecursive (Join dir fi.Name) mode listed with ⟨d, e⟩
  rw [hd] at hr
  simp only at hr
  subst hr
  simp only [DirEntry.traversed] at h
  simp [Entries.overwritten, h, hd]

theorem overwritten_traversed_ok (dir : String) (mode : Mode) (fi : DirEntry)
    (parsed : Mode → Except GoError AstFile) (listed : Listing) (rest : Entries)
    (pkgs : GoMap Package) (h : fi.traversed = true)
    (hr : (parseDirRecursive (Join dir fi.Name) mode listed).err = none) :
    Entries.overwritten dir mode (.cons fi parsed listed rest) pkgs =
      Listing.overwritten (Join dir fi.Name) mode listed ++
        ((GoMap.keys ((parseDirRecursive (Join dir fi.Name) mode listed).pkgs.getD [])).filter
            (fun k => (GoMap.get pkgs k).isSome) ++
          Entries.overwritten dir mode rest
            (GoMap.mergeInto pkgs
              ((parseDirRecursive (Join dir fi.Name) mode listed).pkgs.getD []))) := by
  rcases hd : parseDirRecursive (Join dir fi.Name) mode listed with ⟨d, e⟩
  rw [hd] at hr
  simp only at hr
  subst hr
  simp only [DirEntry.traversed] at h
  simp [Entries.overwritten, h, hd]

theorem overwritten_parsed_err (dir : String) (mode : Mode) (fi : DirEntry)
    (parsed : Mode → Except GoError AstFile) (listed : Listing) (rest : Entries)
    (pkgs : GoMap Package) (err : GoError) (h : fi.parsedEntry = true)
    (hr : parsed mode = .error err) :
    Entries.overwritten dir mode (.cons fi parsed listed rest) pkgs = [] := by
  simp only [DirEntry.parsedEntry, DirEntry.traversed, Bool.and_eq_true, Bool.not_eq_true'] at h
  simp [Entries.overwritten, h.1, h.2, hr]

theorem overwritten_parsed_ok (dir : String) (mode : Mode) (fi : DirEntry)
    (parsed : Mode → Except GoError AstFile) (listed : Listing) (rest : Entries)
    (pkgs : GoMap Package) (f : AstFile) (h : fi.parsedEntry = true)
    (hr : parsed mode = .ok f) :
    Entries.overwritten dir mode (.cons fi parsed listed rest) pkgs =
      Entries.overwritten dir mode rest (addFile pkgs dir (Join dir fi.Name) f) := by
  simp only [DirEntry.parsedEntry, DirEntry.traversed, Bool.and_eq_true, Bool.not_eq_true'] at h
  simp [Entries.overwritten, h.1, h.2, hr]

theorem overwritten_ignored (dir : String) (mode : Mode) (fi : DirEntry)
    (parsed : Mode → Except GoError AstFile) (listed : Listing) (rest : Entries)
    (pkgs : GoMap Package) (h : fi.ignored = true) :
    Entries.overwritten dir mode (.cons fi parsed listed rest) pkgs =
      Entries.overwritten dir mode rest pkgs := by
  simp only [DirEntry.ignored, DirEntry.traversed, Bool.and_eq_true, Bool.not_eq_true'] at h
  simp [Entries.overwritten, h.1, h.2]

/-- After one entry of a well-formed directory, the map still holds no key of the
directories below the entries that follow. -/
theorem fresh_after_merge (dir : String) (mode : Mode) (fi : DirEntry)
    (parsed : Mode → Except GoError AstFile) (listed : Listing) (rest : Entries)
    (pkgs : GoMap Package)
    (hw : Entries.wellFormed (.cons fi parsed listed rest) = true)
    (hn : Entries.noHash mode (.cons fi parsed listed rest) = true)
    (ht : fi.traversed = true)
    (hfresh : ∀ k ∈ GoMap.keys pkgs,
      ¬ KeyFrom (Entries.reachedBelow dir (.cons fi parsed listed rest)) mode k) :
    ∀ k ∈ GoMap.keys (GoMap.mergeInto pkgs
        ((parseDirRecursive (Join dir fi.Name) mode listed).pkgs.getD [])),
      ¬ KeyFrom (Entries.reachedBelow dir rest) mode k := by
  intro k hk hkf
  rcases (GoMap.mem_keys_mergeInto _ _ k).1 hk with hk | hk
  · exact hfresh k hk (keyFrom_below_rest dir mode fi parsed listed rest k hkf)
  · exact keyFrom_disjoint dir mode fi parsed listed rest hw hn ht k
      (parseDirRecursive_keys mode listed (Join dir fi.Name) k hk) hkf

theorem fresh_after_addFile (dir : String) (mode : Mode) (fi : DirEntry)
    (parsed : Mode → Except GoError AstFile) (listed : Listing) (rest : Entries)
    (pkgs : GoMap Package) (f : AstFile)
    (hw : Entries.wellFormed (.cons fi parsed listed rest) = true)
    (hn : Entries.noHash mode (.cons fi parsed listed rest) = true)
    (hp : parsed mode = .ok f)
    (hfresh : ∀ k ∈ GoMap.keys pkgs,
      ¬ KeyFrom (Entries.reachedBelow dir (.cons fi parsed listed rest)) mode k) :
    ∀ k ∈ GoMap.keys (addFile pkgs dir (Join dir fi.Name) f),
      ¬ KeyFrom (Entries.reachedBelow dir rest) mode k := by
  obtain ⟨_, _, _, hr⟩ := (Entries.wellFormed_cons fi parsed listed rest).1 hw
  obtain ⟨hpn, _, hnr⟩ := (Entries.noHash_cons mode fi parsed listed rest).1 hn
  intro k hk hkf
  rcases (mem_keys_addFile _ _ _ _ k).1 hk with hk | hk
  · subst hk
    exact keyFrom_not_below dir mode rest hr hnr f.Name (hpn f hp) hkf
  · exact hfresh k hk (keyFrom_below_rest dir mode fi parsed listed rest k hkf)

mutual
theorem listing_overwritten_nil (mode : Mode) : ∀ (l : Listing) (dir : String),
    Listing.wellFormed l = true → Listing.noHash mode l = true →
      Listing.overwritten dir mode l = []
  | .fail _, dir, _, _ => by simp [Listing.overwritten]
  | .ok infos, dir, hw, hn => by
    simp only [Listing.overwritten]
    exact entries_overwritten_nil mode infos dir [] (by simpa [Listing.wellFormed] using hw)
      (by simpa [Listing.noHash] using hn) (by simp [GoMap.keys])
theorem entries_overwritten_nil (mode : Mode) :
    ∀ (infos : Entries) (dir : String) (pkgs : GoMap Package),
      Entries.wellFormed infos = true → Entries.noHash mode infos = true →
      (∀ k ∈ GoMap.keys pkgs, ¬ KeyFrom (Entries.reachedBelow dir infos) mode k) →
        Entries.overwritten dir mode infos pkgs = []
  | .nil, dir, pkgs, _, _, _ => by simp [Entries.overwritten]
  | .cons fi parsed listed rest, dir, pkgs, hw, hn, hfresh => by
    obtain ⟨hv, hnot, hl, hr⟩ := (Entries.wellFormed_cons fi parsed listed rest).1 hw
    obtain ⟨hpn, hnl, hnr⟩ := (Entries.noHash_cons mode fi parsed listed rest).1 hn
    rcases fi.kind with hk | hk | hk
    · have hsub := listing_overwritten_nil mode listed (Join dir fi.Name) hl hnl
      cases he : (parseDirRecursive (Join dir fi.Name) mode listed).err with
      | some err =>
        rw [overwritten_traversed_err dir mode fi parsed listed rest pkgs err hk he, hsub]
      | none =>
        rw [overwritten_traversed_ok dir mode fi parsed listed rest pkgs hk he, hsub,
          entries_overwritten_nil mode rest dir _ hr hnr
            (fresh_after_merge dir mode fi parsed listed rest pkgs hw hn hk hfresh)]
        simp only [List.nil_append, List.append_nil, List.filter_eq_nil_iff]
        intro k hkd
        have hkf := keyFrom_sub dir mode fi parsed listed rest k hk
          (parseDirRecursive_keys mode listed (Join dir fi.Name) k hkd)
        have : k ∉ GoMap.keys pkgs := fun hm => hfresh k hm hkf
        simp [(GoMap.get_eq_none_iff pkgs k).2 this]
    · cases hp : parsed mode with
      | error err => exact overwritten_parsed_err dir mode fi parsed listed rest pkgs err hk hp
      | ok f =>
        rw [overwritten_parsed_ok dir mode fi parsed listed rest pkgs f hk hp]
        exact entries_overwritten_nil mode rest dir _ hr hnr
          (fresh_after_addFile dir mode fi parsed listed rest pkgs f hw hn hp hfresh)
    · rw [overwritten_ignored dir mode fi parsed listed rest pkgs hk]
      exact entries_overwritten_nil mode rest dir _ hr hnr
        (fun k hm hkf => hfresh k hm (keyFrom_below_rest dir mode fi parsed listed rest k hkf))
end

/-! ## The records of the package set -/

theorem GoMap.get_eq_some_iff_mem {V : Type} (m : GoMap V) (h : (GoMap.keys m).Nodup)
    (k : String) (v : V) : GoMap.get m k = some v ↔ (k, v) ∈ m := by
  induction m with
  | nil => simp [GoMap.get]
  | cons kv m ih =>
    obtain ⟨k0, v0⟩ := kv
    simp only [GoMap.keys, List.map_cons, List.nodup_cons, List.mem_map, Prod.exists,
      exists_and_right, exists_eq_right, not_exists] at h
    have ih' := ih (by simpa [GoMap.keys] using h.2)
    by_cases hk : k0 = k
    · subst hk
      simp only [GoMap.get, if_true, Option.some.injEq, List.mem_cons, Prod.mk.injEq, true_and]
      constructor
      · intro e; exact Or.inl e.symm
      · rintro (e | hm)
        · exact e.symm
        · exact absurd hm (h.1 v)
    · have : ¬ k = k0 := fun e => hk e.symm
      simp [GoMap.get, hk, this, ih']

theorem extendRec_some (pkg : Package) (pname : String) (fs : List (String × AstFile)) :
    extendRec (some pkg) pname fs =
      some { Name := pkg.Name, Files := GoMap.mergeInto pkg.Files fs } := by
  induction fs generalizing pkg with
  | nil => simp [extendRec, GoMap.mergeInto]
  | cons x fs ih =>
    have := ih { pkg with Files := GoMap.set pkg.Files x.1 x.2 }
    simp only [extendRec, List.foldl_cons, GoMap.mergeInto] at this ⊢
    exact this

theorem extendRec_none_cons (pname : String) (x : String × AstFile)
    (fs : List (String × AstFile)) :
    extendRec none pname (x :: fs) =
      some { Name := pname, Files := GoMap.mergeInto [] (x :: fs) } := by
  have := extendRec_some { Name := pname, Files := GoMap.set [] x.1 x.2 } pname fs
  simp only [extendRec, List.foldl_cons, GoMap.mergeInto] at this ⊢
  exact this

theorem mem_filesNamed (n : String) (fs : List (String × AstFile)) (q : String) (f : AstFile) :
    (q, f) ∈ filesNamed n fs ↔ (q, f) ∈ fs ∧ f.Name = n := by
  simp [filesNamed, List.mem_filter]

theorem nodup_filesNamed (n : String) (fs : List (String × AstFile))
    (h : (fs.map Prod.fst).Nodup) : (GoMap.keys (filesNamed n fs)).Nodup := by
  unfold GoMap.keys filesNamed
  exact List.Nodup.sublist (List.Sublist.map _ (List.filter_sublist fs)) h

/-- The record built from nothing by files with different paths has the name given and
holds exactly these files. -/
theorem extendRec_none_spec (pname n : String) (fs : List (String × AstFile))
    (hn : (fs.map Prod.fst).Nodup) (q0 : String) (f0 : AstFile) (h0 : (q0, f0) ∈ fs)
    (hf0 : f0.Name = n) :
    ∃ rec, extendRec none pname (filesNamed n fs) = some rec ∧ rec.Name = pname ∧
      ∀ q f, GoMap.get rec.Files q = some f ↔ ((q, f) ∈ fs ∧ f.Name = n) := by
  have hmem : (q0, f0) ∈ filesNamed n fs := (mem_filesNamed n fs q0 f0).2 ⟨h0, hf0⟩
  have hnd := nodup_filesNamed n fs hn
  cases hfs : filesNamed n fs with
  | nil => rw [hfs] at hmem; simp at hmem
  | cons x rest =>
    rw [extendRec_none_cons]
    refine ⟨_, rfl, rfl, ?_⟩
    intro q f
    rw [← hfs]
    simp only
    rw [GoMap.get_mergeInto _ _ _ hnd]
    by_cases hq : q ∈ GoMap.keys (filesNamed n fs)
    · rw [if_pos hq, GoMap.get_eq_some_iff_mem _ hnd, mem_filesNamed]
    · rw [if_neg hq]
      simp only [GoMap.get, reduceCtorEq, false_iff]
      intro hm
      apply hq
      have := (mem_filesNamed n fs q f).2 hm
      exact List.mem_map.2 ⟨(q, f), this, rfl⟩

theorem extendRec_isSome (r : Option Package) (pname : String) (fs : List (String × AstFile))
    (x : String × AstFile) (hx : x ∈ fs) : ∃ rec, extendRec r pname fs = some rec := by
  cases fs with
  | nil => simp at hx
  | cons y rest =>
    cases r with
    | none => exact ⟨_, extendRec_none_cons pname y rest⟩
    | some pkg => exact ⟨_, extendRec_some pkg pname (y :: rest)⟩

theorem not_traversed_of_parsedEntry (fi : DirEntry) (h : fi.parsedEntry = true) :
    fi.traversed = false := by
  simp only [DirEntry.parsedEntry, Bool.and_eq_true, Bool.not_eq_true'] at h
  exact h.1

theorem not_traversed_of_ignored (fi : DirEntry) (h : fi.ignored = true) :
    fi.traversed = false := by
  simp only [DirEntry.ignored, Bool.and_eq_true, Bool.not_eq_true'] at h
  exact h.1

theorem not_parsedEntry_of_traversed (fi : DirEntry) (h : fi.traversed = true) :
    fi.parsedEntry = false := by
  simp [DirEntry.parsedEntry, h]

theorem not_parsedEntry_of_ignored (fi : DirEntry) (h : fi.ignored = true) :
    fi.parsedEntry = false := by
  simp only [DirEntry.ignored, Bool.and_eq_true, Bool.not_eq_true'] at h
  simp [DirEntry.parsedEntry, h.1, h.2]

theorem failures_cons_nil (mode : Mode) (fi : DirEntry) (parsed : Mode → Except GoError AstFile)
    (listed : Listing) (rest : Entries)
    (h : Entries.failures mode (.cons fi parsed listed rest) = []) :
    (fi.traversed = true → Listing.failures mode listed = []) ∧
      (fi.parsedEntry = true → ∃ f, parsed mode = .ok f) ∧
      Entries.failures mode rest = [] := by
  simp only [Entries.failures, List.append_eq_nil] at h
  refine ⟨?_, ?_, h.2⟩
  · intro ht
    simpa [ht] using h.1
  · intro hp
    have ht := not_traversed_of_parsedEntry fi hp
    simp only [DirEntry.parsedEntry, Bool.and_eq_true, Bool.not_eq_true'] at hp
    cases hpm : parsed mode with
    | error e => simp [ht, hp.2, hpm] at h
    | ok f => exact ⟨f, rfl⟩

mutual
/-- A walk without failure in a well-formed tree returns, for every directory of the
traversal and every package declared directly in it, the record built from the files of
that directory that declare that package. -/
theorem parseDirRecursive_exact (mode : Mode) : ∀ (l : Listing) (dir : String),
    Listing.failures mode l = [] → Listing.wellFormed l = true → Listing.noHash mode l = true →
    ∃ p, parseDirRecursive dir mode l = { pkgs := some p, err := none } ∧
      ∀ D es q f, (D, es) ∈ Listing.reached dir l → (q, f) ∈ Entries.declared D mode es →
        GoMap.get p (D ++ "#" ++ f.Name) =
          extendRec none (D ++ "#" ++ f.Name) (filesNamed f.Name (Entries.declared D mode es))
  | .fail _, dir, h, _, _ => by simp [Listing.failures] at h
  | .ok infos, dir, hf, hw, hn => by
    simp only [Listing.failures, Listing.wellFormed, Listing.noHash] at hf hw hn
    obtain ⟨p, hp, h1, h2, _⟩ := parseDirLoop_exact mode infos dir [] hf hw hn
      (by simp [GoMap.keys]) (by simp [GoMap.keys])
    refine ⟨p, by simpa [parseDirRecursive] using hp, ?_⟩
    intro D es q f hm hd
    simp only [Listing.reached, List.mem_cons, Prod.mk.injEq] at hm
    rcases hm with ⟨rfl, rfl⟩ | hm
    · rw [h2 f.Name (declared_noHash D mode es hn q f hd)]
      simp [GoMap.get]
    · exact h1 D es q f hm hd
/-- The loop without failure in a well-formed directory, started with a map that holds no
key of the directories below: the records of the directories below are complete, the
records of the directory itself are extended by its files, all other keys are left. -/
theorem parseDirLoop_exact (mode : Mode) :
    ∀ (infos : Entries) (dir : String) (pkgs : GoMap Package),
      Entries.failures mode infos = [] → Entries.wellFormed infos = true →
      Entries.noHash mode infos = true → (GoMap.keys pkgs).Nodup →
      (∀ k ∈ GoMap.keys pkgs, ¬ KeyFrom (Entries.reachedBelow dir infos) mode k) →
      ∃ p, parseDirLoop dir mode infos pkgs = { pkgs := some p, err := none } ∧
        (∀ D es q f, (D, es) ∈ Entries.reachedBelow dir infos →
          (q, f) ∈ Entries.declared D mode es →
          GoMap.get p (D ++ "#" ++ f.Name) =
            extendRec none (D ++ "#" ++ f.Name)
              (filesNamed f.Name (Entries.declared D mode es))) ∧
        (∀ n, '#' ∉ n.data →
          GoMap.get p (dir ++ "#" ++ n) =
            extendRec (GoMap.get pkgs (dir ++ "#" ++ n)) (dir ++ "#" ++ n)
              (filesNamed n (Entries.declared dir mode infos))) ∧
        (∀ k, ¬ KeyFrom (Listing.reached dir (.ok infos)) mode k →
          GoMap.get p k = GoMap.get pkgs k)
  | .nil, dir, pkgs, _, _, _, _, _ => by
    refine ⟨pkgs, parseDirLoop_nil dir mode pkgs, ?_, ?_, ?_⟩
    · intro D es q f hm
      simp [Entries.reachedBelow] at hm
    · intro n _
      simp [Entries.declared, filesNamed, extendRec]
    · intro k _
      rfl
  | .cons fi parsed listed rest, dir, pkgs, hf, hw, hn, hnd, hfresh => by
    obtain ⟨hv, hnot, hl, hr⟩ := (Entries.wellFormed_cons fi parsed listed rest).1 hw
    obtain ⟨hpn, hnl, hnr⟩ := (Entries.noHash_cons mode fi parsed listed rest).1 hn
    obtain ⟨hft, hfp, hfr⟩ := failures_cons_nil mode fi parsed listed rest hf
    rcases fi.kind with hk | hk | hk
    · -- a traversed subdirectory
      obtain ⟨d, hd, hsub⟩ := parseDirRecursive_exact mode listed (Join dir fi.Name) (hft hk) hl hnl
      have he : (parseDirRecursive (Join dir fi.Name) mode listed).err = none := by rw [hd]
      have hdp : (parseDirRecursive (Join dir fi.Name) mode listed).pkgs.getD [] = d := by
        rw [hd]; rfl
      have hdn : (GoMap.keys d).Nodup := by
        have := parseDirRecursive_nodup mode listed (Join dir fi.Name)
        rwa [hdp] at this
      have hdk : ∀ k ∈ GoMap.keys d, KeyFrom (Listing.reached (Join dir fi.Name) listed) mode k := by
        intro k hkd
        exact parseDirRecursive_keys mode listed (Join dir fi.Name) k (by rw [hdp]; exact hkd)
      have hfresh' := fresh_after_merge dir mode fi parsed listed rest pkgs hw hn hk hfresh
      rw [hdp] at hfresh'
      obtain ⟨p, hp, h1, h2, h3⟩ := parseDirLoop_exact mode rest dir (GoMap.mergeInto pkgs d)
        hfr hr hnr (GoMap.nodup_keys_mergeInto d pkgs hnd) hfresh'
      have hloop := parseDirLoop_traversed_ok dir mode fi parsed listed rest pkgs hk he
      rw [hdp] at hloop
      refine ⟨p, by rw [hloop, hp], ?_, ?_, ?_⟩
      · intro D es q f hm hdecl
        simp only [Entries.reachedBelow, hk, if_true, List.mem_append] at hm
        rcases hm with hm | hm
        · have hkey : KeyFrom (Listing.reached (Join dir fi.Name) listed) mode
              (D ++ "#" ++ f.Name) := ⟨D, es, q, f, hm, hdecl, rfl⟩
          have hnot' : ¬ KeyFrom (Listing.reached dir (.ok rest)) mode (D ++ "#" ++ f.Name) := by
            intro hkf
            rcases keyFrom_reached hkf with ⟨q', f', hd', he'⟩ | hkf
            · have hbelow := keyFrom_sub dir mode fi parsed listed rest _ hk hkey
              rw [he'] at hbelow
              exact keyFrom_not_below dir mode _ hw hn f'.Name
                (declared_noHash dir mode rest hnr q' f' hd') hbelow
            · exact keyFrom_disjoint dir mode fi parsed listed rest hw hn hk _ hkey hkf
          rw [h3 _ hnot', GoMap.get_mergeInto d pkgs _ hdn]
          have hget := hsub D es q f hm hdecl
          obtain ⟨rec, hrec⟩ := extendRec_isSome none (D ++ "#" ++ f.Name)
            (filesNamed f.Name (Entries.declared D mode es)) (q, f)
            ((mem_filesNamed _ _ q f).2 ⟨hdecl, rfl⟩)
          have hin : D ++ "#" ++ f.Name ∈ GoMap.keys d :=
            (GoMap.mem_keys_iff d _).2 ⟨rec, by rw [hget, hrec]⟩
          rw [if_pos hin, hget]
        · exact h1 D es q f hm hdecl
      · intro n hno
        have hnin : dir ++ "#" ++ n ∉ GoMap.keys d := by
          intro hin
          exact keyFrom_not_below dir mode _ hw hn n hno
            (keyFrom_sub dir mode fi parsed listed rest _ hk (hdk _ hin))
        rw [h2 n hno, GoMap.get_mergeInto d pkgs _ hdn, if_neg hnin]
        simp [Entries.declared, not_parsedEntry_of_traversed fi hk]
      · intro k hkn
        have hnin : k ∉ GoMap.keys d := by
          intro hin
          exact hkn (keyFrom_below (keyFrom_sub dir mode fi parsed listed rest _ hk (hdk _ hin)))
        rw [h3 k (fun hkf => hkn (keyFrom_rest dir mode fi parsed listed rest k hkf)),
          GoMap.get_mergeInto d pkgs _ hdn, if_neg hnin]
    · -- a parsed file
      obtain ⟨f0, hp0⟩ := hfp hk
      have hnt := not_traversed_of_parsedEntry fi hk
      obtain ⟨p, hp, h1, h2, h3⟩ := parseDirLoop_exact mode rest dir
        (addFile pkgs dir (Join dir fi.Name) f0) hfr hr hnr
        (nodup_keys_addFile pkgs dir _ f0 hnd)
        (fresh_after_addFile dir mode fi parsed listed rest pkgs f0 hw hn hp0 hfresh)
      refine ⟨p, by rw [parseDirLoop_parsed_ok dir mode fi parsed listed rest pkgs f0 hk hp0, hp],
        ?_, ?_, ?_⟩
      · intro D es q f hm hdecl
        simp only [Entries.reachedBelow, hnt, Bool.false_eq_true, if_false, List.nil_append] at hm
        exact h1 D es q f hm hdecl
      · intro n hno
        rw [h2 n hno, get_addFile]
        by_cases hname : f0.Name = n
        · subst hname
          simp [Entries.declared, hk, hp0, filesNamed, extendRec]
        · have hne : ¬ dir ++ "#" ++ f0.Name = dir ++ "#" ++ n :=
            fun e => hname (key_name_inj dir _ _ e)
          rw [if_neg hne]
          simp [Entries.declared, hk, hp0, filesNamed, hname]
      · intro k hkn
        have hne : ¬ dir ++ "#" ++ f0.Name = k := by
          intro e
          exact hkn (e ▸ keyFrom_head dir mode fi parsed listed rest f0 hk hp0)
        rw [h3 k (fun hkf => hkn (keyFrom_rest dir mode fi parsed listed rest k hkf)),
          get_addFile, if_neg hne]
    · -- an ignored entry
      have hnt := not_traversed_of_ignored fi hk
      obtain ⟨p, hp, h1, h2, h3⟩ := parseDirLoop_exact mode rest dir pkgs hfr hr hnr hnd
        (fun k hm hkf => hfresh k hm (keyFrom_below_rest dir mode fi parsed listed rest k hkf))
      refine ⟨p, by rw [parseDirLoop_ignored dir mode fi parsed listed rest pkgs hk, hp],
        ?_, ?_, ?_⟩
      · intro D es q f hm hdecl
        simp only [Entries.reachedBelow, hnt, Bool.false_eq_true, if_false, List.nil_append] at hm
        exact h1 D es q f hm hdecl
      · intro n hno
        rw [h2 n hno]
        simp [Entries.declared, not_parsedEntry_of_ignored fi hk]
      · intro k hkn
        exact h3 k (fun hkf => hkn (keyFrom_rest dir mode fi parsed listed rest k hkf))
end

mutual
/-- A walk without failure returns a package set with every key of the traversal. -/
theorem parseDirRecursive_keys_complete (mode : Mode) : ∀ (l : Listing) (dir : String),
    Listing.failures mode l = [] →
    ∃ p, parseDirRecursive dir mode l = { pkgs := some p, err := none } ∧
      ∀ k, KeyFrom (Listing.reached dir l) mode k → k ∈ GoMap.keys p
  | .fail _, dir, h => by simp [Listing.failures] at h
  | .ok infos, dir, hf => by
    simp only [Listing.failures] at hf
    obtain ⟨p, hp, _, h2⟩ := parseDirLoop_keys_complete mode infos dir [] hf
    exact ⟨p, by simpa [parseDirRecursive] using hp, h2⟩
theorem parseDirLoop_keys_complete (mode : Mode) :
    ∀ (infos : Entries) (dir : String) (pkgs : GoMap Package),
      Entries.failures mode infos = [] →
      ∃ p, parseDirLoop dir mode infos pkgs = { pkgs := some p, err := none } ∧
        (∀ k ∈ GoMap.keys pkgs, k ∈ GoMap.keys p) ∧
        (∀ k, KeyFrom (Listing.reached dir (.ok infos)) mode k → k ∈ GoMap.keys p)
  | .nil, dir, pkgs, _ => by
    refine ⟨pkgs, parseDirLoop_nil dir mode pkgs, fun k h => h, ?_⟩
    intro k hk
    rcases keyFrom_reached hk with ⟨q, f, h, _⟩ | ⟨D, es, q, f, h, _⟩
    · simp [Entries.declared] at h
    · simp [Entries.reachedBelow] at h
  | .cons fi parsed listed rest, dir, pkgs, hf => by
    obtain ⟨hft, hfp, hfr⟩ := failures_cons_nil mode fi parsed listed rest hf
    rcases fi.kind with hk | hk | hk
    · obtain ⟨d, hd, hsub⟩ := parseDirRecursive_keys_complete mode listed (Join dir fi.Name) (hft hk)
      have he : (parseDirRecursive (Join dir fi.Name) mode listed).err = none := by rw [hd]
      have hdp : (parseDirRecursive (Join dir fi.Name) mode listed).pkgs.getD [] = d := by
        rw [hd]; rfl
      obtain ⟨p, hp, h1, h2⟩ := parseDirLoop_keys_complete mode rest dir (GoMap.mergeInto pkgs d) hfr
      have hloop := parseDirLoop_traversed_ok dir mode fi parsed listed rest pkgs hk he
      rw [hdp] at hloop
      refine ⟨p, by rw [hloop, hp], ?_, ?_⟩
      · intro k hkm
        exact h1 k ((GoMap.mem_keys_mergeInto d pkgs k).2 (Or.inl hkm))
      · intro k hkf
        obtain ⟨D, es, q, f, a, b, c⟩ := hkf
        simp only [Listing.reached, Entries.reachedBelow, hk, if_true, List.mem_cons,
          Prod.mk.injEq, List.mem_append] at a
        rcases a with ⟨rfl, rfl⟩ | a | a
        · simp only [Entries.declared, not_parsedEntry_of_traversed fi hk, Bool.false_eq_true,
            if_false, List.nil_append] at b
          exact h2 k (keyFrom_here ⟨q, f, b, c⟩)
        · exact h1 k ((GoMap.mem_keys_mergeInto d pkgs k).2 (Or.inr (hsub k ⟨D, es, q, f, a, b, c⟩)))
        · exact h2 k (keyFrom_below ⟨D, es, q, f, a, b, c⟩)
    · obtain ⟨f0, hp0⟩ := hfp hk
      have hnt := not_traversed_of_parsedEntry fi hk
      obtain ⟨p, hp, h1, h2⟩ := parseDirLoop_keys_complete mode rest dir
        (addFile pkgs dir (Join dir fi.Name) f0) hfr
      refine ⟨p, by rw [parseDirLoop_parsed_ok dir mode fi parsed listed rest pkgs f0 hk hp0, hp],
        ?_, ?_⟩
      · intro k hkm
        exact h1 k ((mem_keys_addFile pkgs dir _ f0 k).2 (Or.inr hkm))
      · intro k hkf
        obtain ⟨D, es, q, f, a, b, c⟩ := hkf
        simp only [Listing.reached, Entries.reachedBelow, hnt, Bool.false_eq_true, if_false,
          List.nil_append, List.mem_cons, Prod.mk.injEq] at a
        rcases a with ⟨rfl, rfl⟩ | a
        · simp only [Entries.declared, hk, if_true, hp0, List.singleton_append, List.mem_cons,
            Prod.mk.injEq] at b
          rcases b with ⟨_, rfl⟩ | b
          · exact h1 k ((mem_keys_addFile pkgs D _ f k).2 (Or.inl c))
          · exact h2 k (keyFrom_here ⟨q, f, b, c⟩)
        · exact h2 k (keyFrom_below ⟨D, es, q, f, a, b, c⟩)
    · have hnt := not_traversed_of_ignored fi hk
      obtain ⟨p, hp, h1, h2⟩ := parseDirLoop_keys_complete mode rest dir pkgs hfr
      refine ⟨p, by rw [parseDirLoop_ignored dir mode fi parsed listed rest pkgs hk, hp], h1, ?_⟩
      intro k hkf
      obtain ⟨D, es, q, f, a, b, c⟩ := hkf
      simp only [Listing.reached, Entries.reachedBelow, hnt, Bool.false_eq_true, if_false,
        List.nil_append, List.mem_cons, Prod.mk.injEq] at a
      rcases a with ⟨rfl, rfl⟩ | a
      · simp only [Entries.declared, not_parsedEntry_of_ignored fi hk, Bool.false_eq_true,
          if_false, List.nil_append] at b
        exact h2 k (keyFrom_here ⟨q, f, b, c⟩)
      · exact h2 k (keyFrom_below ⟨D, es, q, f, a, b, c⟩)
end

/-- The package set of a walk without failure: its keys are exactly the keys of the
traversal, each one once; and in a well-formed tree the record of a directory `D` and a
package declared in it bears its key as name and holds exactly the files of `D` that
declare the package, under their paths. -/
theorem parseDirRecursive_spec (dir : String) (mode : Mode) (infos : Entries)
    (hf : Listing.failures mode (.ok infos) = []) :
    ∃ pkgs, parseDirRecursive dir mode (.ok infos) = { pkgs := some pkgs, err := none } ∧
      (GoMap.keys pkgs).Nodup ∧
      (∀ k, k ∈ GoMap.keys pkgs ↔ KeyFrom (Listing.reached dir (.ok infos)) mode k) ∧
      (Entries.wellFormed infos = true → Entries.noHash mode infos = true →
        ∀ D es q0 f0, (D, es) ∈ Listing.reached dir (.ok infos) →
          (q0, f0) ∈ Entries.declared D mode es →
          ∃ rec, GoMap.get pkgs (D ++ "#" ++ f0.Name) = some rec ∧
            rec.Name = D ++ "#" ++ f0.Name ∧
            ∀ q f, GoMap.get rec.Files q = some f ↔
              ((q, f) ∈ Entries.declared D mode es ∧ f.Name = f0.Name)) := by
  obtain ⟨pkgs, hp, hk⟩ := parseDirRecursive_keys_complete mode (.ok infos) dir hf
  have hpk : (parseDirRecursive dir mode (.ok infos)).pkgs.getD [] = pkgs := by rw [hp]; rfl
  refine ⟨pkgs, hp, ?_, ?_, ?_⟩
  · have := parseDirRecursive_nodup mode (.ok infos) dir
    rwa [hpk] at this
  · intro k
    constructor
    · intro hm
      exact parseDirRecursive_keys mode (.ok infos) dir k (by rw [hpk]; exact hm)
    · exact hk k
  · intro hw hn D es q0 f0 hm hd
    obtain ⟨p, hp', hex⟩ := parseDirRecursive_exact mode (.ok infos) dir hf
      (by simpa [Listing.wellFormed] using hw) (by simpa [Listing.noHash] using hn)
    have hpp : p = pkgs := by
      rw [hp] at hp'
      simp only [DirResult.mk.injEq, Option.some.injEq, and_true] at hp'
      exact hp'.symm
    subst hpp
    have hsub := reached_sub (.ok infos) dir mode (by simpa [Listing.wellFormed] using hw)
      (by simpa [Listing.noHash] using hn) D es hm
    obtain ⟨rec, h1, h2, h3⟩ := extendRec_none_spec (D ++ "#" ++ f0.Name) f0.Name
      (Entries.declared D mode es) (declared_nodup D mode es hsub.1) q0 f0 hd rfl
    exact ⟨rec, by rw [hex D es q0 f0 hm hd, h1], h2, h3⟩

/-! ## Errors -/

mutual
/-- The error of the directory walk is the first one of the tree in traversal order. -/
theorem parseDirRecursive_err (dir : String) (mode : Mode) :
    ∀ l : Listing, (parseDirRecursive dir mode l).err = (Listing.failures mode l).head?
  | .fail err => by simp [parseDirRecursive, Listing.failures]
  | .ok infos => by
    simp only [parseDirRecursive, Listing.failures]
    exact parseDirLoop_err dir mode infos []
/-- The error of the loop is the first one under its entries in traversal order. -/
theorem parseDirLoop_err (dir : String) (mode : Mode) :
    ∀ (es : Entries) (pkgs : GoMap Package),
      (parseDirLoop dir mode es pkgs).err = (Entries.failures mode es).head?
  | .nil, pkgs => by simp [parseDirLoop, Entries.failures]
  | .cons fi parsed listed rest, pkgs => by
    have ih := parseDirRecursive_err (Join dir fi.Name) mode listed
    rcases fi.kind with h | h | h
    · cases he : (parseDirRecursive (Join dir fi.Name) mode listed).err with
      | some err =>
        rw [parseDirLoop_traversed_err dir mode fi parsed listed rest pkgs err h he]
        rw [he] at ih
        simp only [Entries.failures, h, if_true]
        cases hf : Listing.failures mode listed with
        | nil => rw [hf] at ih; simp at ih
        | cons a as => rw [hf] at ih; simpa using ih
      | none =>
        rw [parseDirLoop_traversed_ok dir mode fi parsed listed rest pkgs h he]
        rw [he] at ih
        simp only [Entries.failures, h, if_true]
        cases hf : Listing.failures mode listed with
        | nil => simpa using parseDirLoop_err dir mode rest _
        | cons a as => rw [hf] at ih; simp at ih
    · have h' := h
      simp only [DirEntry.parsedEntry, Bool.and_eq_true, Bool.not_eq_true'] at h'
      cases hp : parsed mode with
      | error err =>
        rw [parseDirLoop_parsed_err dir mode fi parsed listed rest pkgs err h hp]
        simp [Entries.failures, h'.1, h'.2, hp]
      | ok f =>
        rw [parseDirLoop_parsed_ok dir mode fi parsed listed rest pkgs f h hp]
        simpa [Entries.failures, h'.1, h'.2, hp] using parseDirLoop_err dir mode rest _
    · have h' := h
      simp only [DirEntry.ignored, Bool.and_eq_true, Bool.not_eq_true'] at h'
      rw [parseDirLoop_ignored dir mode fi parsed listed rest pkgs h]
      simpa [Entries.failures, h'.1, h'.2] using parseDirLoop_err dir mode rest _
end

/-! ## Source selection -/

/-- In directory mode `NewParser` makes the one call of the directory walk and keeps its
package set only when the walk returns no error. -/
theorem newParser_dir (w : World) (o : ParserOptions) (hFile : o.File = "") (hDir : o.Dir ≠ "") :
    NewParser w (some o) =
      { calls := [.parseDir o.Dir o.mode],
        outcome :=
          match (parseDirRecursive o.Dir o.mode (w.ReadDir o.Dir)).err with
          | some err => .ret none (some err)
          | none =>
            .ret (some { file := none,
                         pkgs := (parseDirRecursive o.Dir o.mode (w.ReadDir o.Dir)).pkgs }) none } := by
  unfold NewParser ParserOptions.mode
  rcases h : parseDirRecursive o.Dir (if o.Comments then ParseComments else 0) (w.ReadDir o.Dir)
    with ⟨pk, _ | err⟩ <;> simp [hFile, hDir, h]

/-- C3: with a non-nil options value in which `File` and `Dir` are empty and `Src` is nil,
`NewParser` returns a nil parser and the error "file, src or dir is not specified",
whatever `Comments` is, and makes no call to the parser or to the directory walk. -/
theorem newParser_no_selector (w : World) (o : ParserOptions)
    (hFile : o.File = "") (hDir : o.Dir = "") (hSrc : o.Src = none) :
    NewParser w (some o) =
      { calls := [], outcome := .ret none (some "file, src or dir is not specified") } := by
  simp [NewParser, hFile, hDir, hSrc]

/-- C3 at two concrete requests, one for each value of `Comments`. -/
theorem newParser_no_selector_witness :
    NewParser emptyWorld (some { File := "", Dir := "", Src := none, Comments := false }) =
        { calls := [], outcome := .ret none (some "file, src or dir is not specified") } ∧
      NewParser emptyWorld (some { File := "", Dir := "", Src := none, Comments := true }) =
        { calls := [], outcome := .ret none (some "file, src or dir is not specified") } :=
  ⟨newParser_no_selector emptyWorld _ rfl rfl rfl, newParser_no_selector emptyWorld _ rfl rfl rfl⟩

/-- C10: for the nil options pointer `NewParser` does not return: the `switch` reads
`opts.File` through the nil pointer and the call panics, before any call is made. -/
theorem newParser_nil_panics (w : World) :
    NewParser w none = { calls := [], outcome := .panic nilDereference } := by
  simp [NewParser]

/-- C2, as stated, fails: with `File` empty, `Src` set and `Dir` set, `NewParser` walks the
directory, never parses the buffer, and returns a package set and no file. -/
theorem newParser_src_and_dir_walks_dir :
    NewParser emptyWorld (some { File := "", Dir := "d", Src := some [112], Comments := false }) =
      { calls := [.parseDir "d" 0],
        outcome := .ret (some { file := none, pkgs := some [] }) none } := by
  decide

/-- C2, amended: with `File` and `Dir` empty and `Src` set, the only call of `NewParser`
parses the buffer under the name "src.go"; an accepted buffer gives a parser with that one
file and no package set, a rejected one gives a nil parser and the parser's error.  The
directory walk is called exactly when `File` is empty and `Dir` is not, whatever `Src` is. -/
theorem newParser_precedence (w : World) (o : ParserOptions) :
    (o.File = "" → o.Dir = "" → o.Src ≠ none →
      (NewParser w (some o)).calls = [.parseFile "src.go" o.Src o.mode] ∧
      (∀ f, w.ParseFile "src.go" o.Src o.mode = .ok f →
        (NewParser w (some o)).outcome = .ret (some { file := some f, pkgs := none }) none) ∧
      (∀ err, w.ParseFile "src.go" o.Src o.mode = .error err →
        (NewParser w (some o)).outcome = .ret none (some err))) ∧
    ((∃ d m, Call.parseDir d m ∈ (NewParser w (some o)).calls) ↔ (o.File = "" ∧ o.Dir ≠ "")) ∧
    (o.File = "" → o.Dir ≠ "" → (NewParser w (some o)).calls = [.parseDir o.Dir o.mode]) := by
  refine ⟨?_, ?_, ?_⟩
  · intro hFile hDir hSrc
    simp only [NewParser, ParserOptions.mode, hFile, hDir]
    cases hp : w.ParseFile "src.go" o.Src (if o.Comments then ParseComments else 0) <;>
      simp [hSrc]
  · by_cases hFile : o.File = ""
    · by_cases hDir : o.Dir = ""
      · by_cases hSrc : o.Src = none
        · simp [NewParser, hFile, hDir, hSrc]
        · cases hp : w.ParseFile "src.go" o.Src (if o.Comments then ParseComments else 0) <;>
            simp [NewParser, hFile, hDir, hSrc, hp]
      · rw [newParser_dir w o hFile hDir]
        simp [hFile, hDir]
    · cases hp : w.ParseFile o.File none (if o.Comments then ParseComments else 0) <;>
        simp [NewParser, hFile, hp]
  · intro hFile hDir
    rw [newParser_dir w o hFile hDir]

/-- C2, amended, at a concrete request with only `Src` set. -/
theorem newParser_precedence_witness :
    (NewParser emptyWorld
        (some { File := "", Dir := "", Src := some [112], Comments := true })).calls =
      [.parseFile "src.go" (some [112]) ParseComments] :=
  ((newParser_precedence emptyWorld
    { File := "", Dir := "", Src := some [112], Comments := true }).1 rfl rfl (by decide)).1

/-! ## Failures of the directory walk -/

/-- C4: in directory mode, when the traversed tree under `Dir` holds a failure (a listing
that fails or a parsed entry that is rejected), `NewParser` returns a nil parser, hence no
package set, and the first of these errors in traversal order. -/
theorem newParser_dir_failure (w : World) (o : ParserOptions)
    (hFile : o.File = "") (hDir : o.Dir ≠ "") (err : GoError) (errs : List GoError)
    (h : Listing.failures o.mode (w.ReadDir o.Dir) = err :: errs) :
    NewParser w (some o) =
      { calls := [.parseDir o.Dir o.mode], outcome := .ret none (some err) } := by
  rw [newParser_dir w o hFile hDir, parseDirRecursive_err, h]
  simp

/-- C4 at a tree whose second file is rejected: the accepted first file is not returned. -/
theorem newParser_dir_failure_witness :
    NewParser (treeWorld (fileEntry "a.go" (accepts "a" 1)
        (fileEntry "b.go" (rejects "b.go:1:1: expected 'package'") .nil)))
      (some { File := "", Dir := "/d", Src := none, Comments := false }) =
      { calls := [.parseDir "/d" 0],
        outcome := .ret none (some "b.go:1:1: expected 'package'") } :=
  newParser_dir_failure _ { File := "", Dir := "/d", Src := none, Comments := false }
    rfl (by decide) "b.go:1:1: expected 'package'" [] (by decide)

/-- C5, as stated, fails: when the second file of a directory is rejected,
`parseDirRecursive` returns the error together with the record of the first file. -/
theorem parseDirRecursive_partial_with_error :
    parseDirRecursive "/d" 0
        (.ok (fileEntry "a.go" (accepts "a" 1)
          (fileEntry "b.go" (rejects "b.go:1:1: expected 'package'") .nil))) =
      { pkgs := some [("/d#a", { Name := "/d#a", Files := [("/d/a.go", { Name := "a", Rest := 1 })] })],
        err := some "b.go:1:1: expected 'package'" } := by
  decide

theorem parseDirLoop_append_ok (dir : String) (mode : Mode) :
    ∀ (xs ys : Entries) (pkgs acc : GoMap Package),
      parseDirLoop dir mode xs pkgs = { pkgs := some acc, err := none } →
      parseDirLoop dir mode (Entries.append xs ys) pkgs = parseDirLoop dir mode ys acc
  | .nil, ys, pkgs, acc, h => by
    simp only [parseDirLoop_nil, DirResult.mk.injEq, Option.some.injEq, and_true] at h
    simp [Entries.append, h]
  | .cons fi parsed listed rest, ys, pkgs, acc, h => by
    simp only [Entries.append]
    rcases fi.kind with hk | hk | hk
    · cases he : (parseDirRecursive (Join dir fi.Name) mode listed).err with
      | some err =>
        rw [parseDirLoop_traversed_err dir mode fi parsed listed rest pkgs err hk he] at h
        simp at h
      | none =>
        rw [parseDirLoop_traversed_ok dir mode fi parsed listed rest pkgs hk he] at h
        rw [parseDirLoop_traversed_ok dir mode fi parsed listed _ pkgs hk he]
        exact parseDirLoop_append_ok dir mode rest ys _ acc h
    · cases hp : parsed mode with
      | error err =>
        rw [parseDirLoop_parsed_err dir mode fi parsed listed rest pkgs err hk hp] at h
        simp at h
      | ok f =>
        rw [parseDirLoop_parsed_ok dir mode fi parsed listed rest pkgs f hk hp] at h
        rw [parseDirLoop_parsed_ok dir mode fi parsed listed _ pkgs f hk hp]
        exact parseDirLoop_append_ok dir mode rest ys _ acc h
    · rw [parseDirLoop_ignored dir mode fi parsed listed rest pkgs hk] at h
      rw [parseDirLoop_ignored dir mode fi parsed listed _ pkgs hk]
      exact parseDirLoop_append_ok dir mode rest ys _ acc h

/-- A loop that ends with an error stopped at one entry: the entries before it were all
handled without error, and the map returned is the one accumulated from them. -/
theorem parseDirLoop_err_split (dir : String) (mode : Mode) :
    ∀ (es : Entries) (pkgs : GoMap Package) (err : GoError),
      (parseDirLoop dir mode es pkgs).err = some err →
      ∃ pre fi parsed listed post acc,
        es = Entries.append pre (.cons fi parsed listed post) ∧
        parseDirLoop dir mode pre pkgs = { pkgs := some acc, err := none } ∧
        parseDirLoop dir mode es pkgs = { pkgs := some acc, err := some err } ∧
        ((fi.traversed = true ∧
            (parseDirRecursive (Join dir fi.Name) mode listed).err = some err) ∨
          (fi.parsedEntry = true ∧ parsed mode = .error err))
  | .nil, pkgs, err, h => by simp [parseDirLoop_nil] at h
  | .cons fi parsed listed rest, pkgs, err, h => by
    have step : ∀ pkgs2 : GoMap Package,
        parseDirLoop dir mode (.cons fi parsed listed rest) pkgs = parseDirLoop dir mode rest pkgs2 →
        (∀ pre acc, parseDirLoop dir mode pre pkgs2 = { pkgs := some acc, err := none } →
          parseDirLoop dir mode (.cons fi parsed listed pre) pkgs =
            { pkgs := some acc, err := none }) →
        ∃ pre fi2 parsed2 listed2 post acc,
          Entries.cons fi parsed listed rest = Entries.append pre (.cons fi2 parsed2 listed2 post) ∧
          parseDirLoop dir mode pre pkgs = { pkgs := some acc, err := none } ∧
          parseDirLoop dir mode (.cons fi parsed listed rest) pkgs =
            { pkgs := some acc, err := some err } ∧
          ((fi2.traversed = true ∧
              (parseDirRecursive (Join dir fi2.Name) mode listed2).err = some err) ∨
            (fi2.parsedEntry = true ∧ parsed2 mode = .error err)) := by
      intro pkgs2 hstep hpre
      rw [hstep] at h
      obtain ⟨pre, fi2, parsed2, listed2, post, acc, h1, h2, h3, h4⟩ :=
        parseDirLoop_err_split dir mode rest pkgs2 err h
      refine ⟨.cons fi parsed listed pre, fi2, parsed2, listed2, post, acc, ?_, ?_, ?_, h4⟩
      · simp [Entries.append, h1]
      · exact hpre pre acc h2
      · rw [hstep, h3]
    rcases fi.kind with hk | hk | hk
    · cases he : (parseDirRecursive (Join dir fi.Name) mode listed).err with
      | some err2 =>
        have hl := parseDirLoop_traversed_err dir mode fi parsed listed rest pkgs err2 hk he
        rw [hl] at h
        simp only [Option.some.injEq] at h
        subst h
        exact ⟨.nil, fi, parsed, listed, rest, pkgs, by simp [Entries.append],
          parseDirLoop_nil dir mode pkgs, hl, Or.inl ⟨hk, he⟩⟩
      | none =>
        refine step _ (parseDirLoop_traversed_ok dir mode fi parsed listed rest pkgs hk he) ?_
        intro pre acc hp
        rw [parseDirLoop_traversed_ok dir mode fi parsed listed pre pkgs hk he, hp]
    · cases hp : parsed mode with
      | error err2 =>
        have hl := parseDirLoop_parsed_err dir mode fi parsed listed rest pkgs err2 hk hp
        rw [hl] at h
        simp only [Option.some.injEq] at h
        subst h
        exact ⟨.nil, fi, parsed, listed, rest, pkgs, by simp [Entries.append],
          parseDirLoop_nil dir mode pkgs, hl, Or.inr ⟨hk, hp⟩⟩
      | ok f =>
        refine step _ (parseDirLoop_parsed_ok dir mode fi parsed listed rest pkgs f hk hp) ?_
        intro pre acc hq
        rw [parseDirLoop_parsed_ok dir mode fi parsed listed pre pkgs f hk hp, hq]
    · refine step _ (parseDirLoop_ignored dir mode fi parsed listed rest pkgs hk) ?_
      intro pre acc hq
      rw [parseDirLoop_ignored dir mode fi parsed listed pre pkgs hk, hq]

/-- C5, amended: when `parseDirRecursive` returns an error, the package set beside it is
nil only if the listing of `dir` itself failed.  Otherwise the walk stopped at one entry of
`dir` (a subdirectory whose walk failed, or a rejected file), and the set returned beside
the error is the non-nil set accumulated from the entries of `dir` before that one. -/
theorem parseDirRecursive_error_pkgs (dir : String) (mode : Mode) (l : Listing) (err : GoError)
    (h : (parseDirRecursive dir mode l).err = some err) :
    (l = .fail err ∧ parseDirRecursive dir mode l = { pkgs := none, err := some err }) ∨
    (∃ pre fi parsed listed post acc,
      l = .ok (Entries.append pre (.cons fi parsed listed post)) ∧
      parseDirLoop dir mode pre [] = { pkgs := some acc, err := none } ∧
      parseDirRecursive dir mode l = { pkgs := some acc, err := some err } ∧
      ((fi.traversed = true ∧
          (parseDirRecursive (Join dir fi.Name) mode listed).err = some err) ∨
        (fi.parsedEntry = true ∧ parsed mode = .error err))) := by
  cases l with
  | fail e =>
    left
    simp only [parseDirRecursive, Option.some.injEq] at h
    subst h
    simp [parseDirRecursive]
  | ok infos =>
    right
    simp only [parseDirRecursive] at h ⊢
    obtain ⟨pre, fi, parsed, listed, post, acc, h1, h2, h3, h4⟩ :=
      parseDirLoop_err_split dir mode infos [] err h
    exact ⟨pre, fi, parsed, listed, post, acc, by rw [h1], h2, h3, h4⟩

/-- C5, amended, at a directory whose second file is rejected: the walk stopped at an
entry, and the set beside the error is the one accumulated before that entry. -/
theorem parseDirRecursive_error_pkgs_witness :
    ∃ pre fi parsed listed post acc,
      Listing.ok (fileEntry "a.go" (accepts "a" 1)
          (fileEntry "b.go" (rejects "b.go:1:1: expected 'package'") .nil)) =
        .ok (Entries.append pre (.cons fi parsed listed post)) ∧
      parseDirLoop "/d" 0 pre [] = { pkgs := some acc, err := none } ∧
      parseDirRecursive "/d" 0
          (.ok (fileEntry "a.go" (accepts "a" 1)
            (fileEntry "b.go" (rejects "b.go:1:1: expected 'package'") .nil))) =
        { pkgs := some acc, err := some "b.go:1:1: expected 'package'" } ∧
      ((fi.traversed = true ∧
          (parseDirRecursive (Join "/d" fi.Name) 0 listed).err =
            some "b.go:1:1: expected 'package'") ∨
        (fi.parsedEntry = true ∧ parsed 0 = .error "b.go:1:1: expected 'package'")) :=
  (parseDirRecursive_error_pkgs "/d" 0
    (.ok (fileEntry "a.go" (accepts "a" 1)
      (fileEntry "b.go" (rejects "b.go:1:1: expected 'package'") .nil)))
    "b.go:1:1: expected 'package'" (by decide)).resolve_left (by simp)

/-! ## Hidden and ignored entries -/

/-- C6 fails at a hidden subdirectory whose name ends in `.go`: every entry of the
directory is a hidden subdirectory and none is a `.go` file, yet the directory is handed to
the parser and the walk returns the parser's error. -/
theorem parseDirRecursive_hidden_go_dir :
    Entries.onlyHiddenDirs hiddenGoDir = true ∧
      Entries.hasGoFile hiddenGoDir = false ∧
      parseDirRecursive "/root" 0 (.ok hiddenGoDir) =
        { pkgs := some [], err := some "read /root/.x.go: is a directory" } := by
  decide

/-- Hidden subdirectories whose names do not end in `.go` are skipped, whatever they
hold: a directory with such entries only gives the empty package set and no error. -/
theorem parseDirLoop_hidden_dirs (dir : String) (mode : Mode) :
    ∀ (es : Entries) (pkgs : GoMap Package),
      Entries.onlyHiddenDirs es = true → Entries.hasGoName es = false →
      parseDirLoop dir mode es pkgs = { pkgs := some pkgs, err := none }
  | .nil, pkgs, _, _ => parseDirLoop_nil dir mode pkgs
  | .cons fi parsed listed rest, pkgs, h, hf => by
    simp only [Entries.onlyHiddenDirs, Bool.and_eq_true] at h
    simp only [Entries.hasGoName, Bool.or_eq_false_iff] at hf
    have hi : fi.ignored = true := by
      simp [DirEntry.ignored, DirEntry.traversed, h.1.1, h.1.2, hf.1]
    rw [parseDirLoop_ignored dir mode fi parsed listed rest pkgs hi]
    exact parseDirLoop_hidden_dirs dir mode rest pkgs h.2 hf.2

/-- Taking an ignored entry out of a tree, at any depth, does not change what the loop
returns. -/
theorem parseDirLoop_removeIgnored {xs ys : Entries} (h : RemoveIgnored xs ys) :
    ∀ (dir : String) (mode : Mode) (pkgs : GoMap Package),
      parseDirLoop dir mode xs pkgs = parseDirLoop dir mode ys pkgs := by
  induction h with
  | here fi parsed listed rest hi =>
    intro dir mode pkgs
    exact parseDirLoop_ignored dir mode fi parsed listed rest pkgs hi
  | later fi parsed listed xs ys _ ih =>
    intro dir mode pkgs
    simp only [parseDirLoop, ih]
  | inside fi parsed xs ys rest _ ih =>
    intro dir mode pkgs
    have hsub : parseDirRecursive (Join dir fi.Name) mode (.ok xs) =
        parseDirRecursive (Join dir fi.Name) mode (.ok ys) := by
      simp only [parseDirRecursive, ih]
    simp only [parseDirLoop, hsub]

/-- C8: an entry that is neither a subdirectory with a name not starting with a dot nor
an entry with a name ending in `.go` is ignored: the walk of a tree and the walk of the
tree without such an entry (in the directory itself or anywhere below it) return the same
package set and the same error. -/
theorem parseDirRecursive_ignores (dir : String) (mode : Mode) (xs ys : Entries)
    (h : RemoveIgnored xs ys) :
    parseDirRecursive dir mode (.ok xs) = parseDirRecursive dir mode (.ok ys) := by
  simp only [parseDirRecursive, parseDirLoop_removeIgnored h]

/-- C8 at the example tree with a `README.md` added inside the directory `a`. -/
theorem parseDirRecursive_ignores_witness :
    parseDirRecursive "/root" 0
        (.ok (dirEntry "a" (fileEntry "README.md" (rejects "README.md:1:1: expected 'package'")
            (fileEntry "x.go" (accepts "a" 1) .nil))
          (dirEntry "b" (fileEntry "y.go" (accepts "b" 2) .nil) .nil))) =
      parseDirRecursive "/root" 0 (.ok exampleTree) :=
  parseDirRecursive_ignores "/root" 0 _ _
    (RemoveIgnored.inside _ _ _ _ _ (RemoveIgnored.here _ _ _ _ (by decide)))

/-! ## Packages -/

theorem declared_append (dir : String) (mode : Mode) : ∀ (xs ys : Entries),
    Entries.declared dir mode (Entries.append xs ys) =
      Entries.declared dir mode xs ++ Entries.declared dir mode ys
  | .nil, ys => by simp [Entries.append, Entries.declared]
  | .cons fi parsed listed rest, ys => by
    simp [Entries.append, Entries.declared, declared_append dir mode rest ys]

theorem wellFormed_append_right : ∀ (xs ys : Entries),
    Entries.wellFormed (Entries.append xs ys) = true → Entries.wellFormed ys = true
  | .nil, ys, h => by simpa [Entries.append] using h
  | .cons fi parsed listed rest, ys, h => by
    simp only [Entries.append] at h
    exact wellFormed_append_right rest ys ((Entries.wellFormed_cons _ _ _ _).1 h).2.2.2

theorem names_append : ∀ (xs ys : Entries),
    Entries.names (Entries.append xs ys) = Entries.names xs ++ Entries.names ys
  | .nil, ys => by simp [Entries.append, Entries.names]
  | .cons fi parsed listed rest, ys => by
    simp [Entries.append, Entries.names, names_append rest ys]

theorem declared_mem_of_parsed (dir : String) (mode : Mode) (xs : Entries) (fi : DirEntry)
    (parsed : Mode → Except GoError AstFile) (listed : Listing) (rest : Entries) (f : AstFile)
    (h : fi.parsedEntry = true) (hp : parsed mode = .ok f) :
    (Join dir fi.Name, f) ∈
      Entries.declared dir mode (Entries.append xs (.cons fi parsed listed rest)) := by
  rw [declared_append]
  simp [Entries.declared, h, hp]

/-- C1: a walk in which every listing succeeds and every parsed file is accepted returns
a package set whose keys are exactly the strings `D + "#" + n`, for `D` the root or a
subdirectory reached through subdirectories with names not starting with a dot (under the
path joined from its parent's path and its name) and `n` a package name declared by a
parsed entry directly in `D`; each key stands once.  In a well-formed tree (names as
`os.ReadDir` reports them, package names without `#`) the record at `D + "#" + n` bears
that name and holds exactly the entries of `D` that declare `n`, each under the path
joined from `D` and its name. -/
theorem parseDirRecursive_packages (root : String) (mode : Mode) (infos : Entries)
    (hf : Listing.failures mode (.ok infos) = []) :
    ∃ pkgs, parseDirRecursive root mode (.ok infos) = { pkgs := some pkgs, err := none } ∧
      (GoMap.keys pkgs).Nodup ∧
      (∀ k, k ∈ GoMap.keys pkgs ↔
        ∃ D es q f, (D, es) ∈ Listing.reached root (.ok infos) ∧
          (q, f) ∈ Entries.declared D mode es ∧ k = D ++ "#" ++ f.Name) ∧
      (Entries.wellFormed infos = true → Entries.noHash mode infos = true →
        ∀ D es q0 f0, (D, es) ∈ Listing.reached root (.ok infos) →
          (q0, f0) ∈ Entries.declared D mode es →
          ∃ rec, GoMap.get pkgs (D ++ "#" ++ f0.Name) = some rec ∧
            rec.Name = D ++ "#" ++ f0.Name ∧
            ∀ q f, GoMap.get rec.Files q = some f ↔
              ((q, f) ∈ Entries.declared D mode es ∧ f.Name = f0.Name)) :=
  parseDirRecursive_spec root mode infos hf

/-- C1 at the example of the specification: parsing `/root` gives exactly the two keys
`/root/a#a` and `/root/b#b`, and the record `/root/a#a` holds the file `/root/a/x.go`. -/
theorem parseDirRecursive_packages_witness :
    (parseDirRecursive "/root" 0 (.ok exampleTree)).pkgs.map GoMap.keys =
        some ["/root/a#a", "/root/b#b"] ∧
      ∃ pkgs, parseDirRecursive "/root" 0 (.ok exampleTree) = { pkgs := some pkgs, err := none } ∧
        ∃ rec, GoMap.get pkgs ("/root/a" ++ "#" ++ "a") = some rec ∧
          rec.Name = "/root/a" ++ "#" ++ "a" ∧
          ∀ q f, GoMap.get rec.Files q = some f ↔
            ((q, f) ∈ Entries.declared "/root/a" 0 (fileEntry "x.go" (accepts "a" 1) .nil) ∧
              f.Name = "a") := by
  refine ⟨by decide, ?_⟩
  obtain ⟨pkgs, h1, _, _, h4⟩ := parseDirRecursive_packages "/root" 0 exampleTree (by decide)
  refine ⟨pkgs, h1, ?_⟩
  exact h4 (by decide) (by decide) "/root/a" (fileEntry "x.go" (accepts "a" 1) .nil)
    "/root/a/x.go" { Name := "a", Rest := 1 }
    (List.mem_cons_of_mem _ (List.mem_cons_self _ _)) (List.mem_cons_self _ _)

/-- C7: in a walk without failure of a well-formed tree, take a directory `D` of the
traversal and two entries at different places of its listing, both parsed and accepted,
as files `f1` and `f2`.  Each file stands under its own path in the record keyed
`D + "#"` and its package name, and the two paths differ.  With equal package names that
is one record holding both files; with different names the two keys differ, neither
record holds the other file, and no record of the package set holds both files. -/
theorem parseDirRecursive_same_package (root : String) (mode : Mode) (infos : Entries)
    (hf : Listing.failures mode (.ok infos) = [])
    (hw : Entries.wellFormed infos = true) (hn : Entries.noHash mode infos = true)
    (D : String) (es before between after : Entries)
    (fi1 fi2 : DirEntry) (parsed1 parsed2 : Mode → Except GoError AstFile)
    (listed1 listed2 : Listing) (f1 f2 : AstFile)
    (hD : (D, es) ∈ Listing.reached root (.ok infos))
    (hes : es = Entries.append before (.cons fi1 parsed1 listed1
      (Entries.append between (.cons fi2 parsed2 listed2 after))))
    (h1 : fi1.parsedEntry = true) (h2 : fi2.parsedEntry = true)
    (hp1 : parsed1 mode = .ok f1) (hp2 : parsed2 mode = .ok f2) :
    ∃ pkgs r1 r2,
      parseDirRecursive root mode (.ok infos) = { pkgs := some pkgs, err := none } ∧
      GoMap.get pkgs (D ++ "#" ++ f1.Name) = some r1 ∧
      GoMap.get pkgs (D ++ "#" ++ f2.Name) = some r2 ∧
      GoMap.get r1.Files (Join D fi1.Name) = some f1 ∧
      GoMap.get r2.Files (Join D fi2.Name) = some f2 ∧
      Join D fi1.Name ≠ Join D fi2.Name ∧
      (f1.Name = f2.Name → r1 = r2) ∧
      (f1.Name ≠ f2.Name →
        D ++ "#" ++ f1.Name ≠ D ++ "#" ++ f2.Name ∧
        GoMap.get r1.Files (Join D fi2.Name) = none ∧
        GoMap.get r2.Files (Join D fi1.Name) = none) ∧
      ((∃ k r, GoMap.get pkgs k = some r ∧ GoMap.get r.Files (Join D fi1.Name) = some f1 ∧
          GoMap.get r.Files (Join D fi2.Name) = some f2) ↔ f1.Name = f2.Name) := by
  obtain ⟨pkgs, hp, _, hkeys, hrec⟩ := parseDirRecursive_spec root mode infos hf
  have hrec := hrec hw hn
  have hsub := reached_sub (.ok infos) root mode (by simpa [Listing.wellFormed] using hw)
    (by simpa [Listing.noHash] using hn) D es hD
  -- the two files are declared in `D`
  have hd1 : (Join D fi1.Name, f1) ∈ Entries.declared D mode es := by
    rw [hes]
    exact declared_mem_of_parsed D mode before fi1 parsed1 listed1 _ f1 h1 hp1
  have hd2 : (Join D fi2.Name, f2) ∈ Entries.declared D mode es := by
    rw [hes, declared_append]
    refine List.mem_append_right _ ?_
    simp only [Entries.declared, List.mem_append]
    exact Or.inr (declared_mem_of_parsed D mode between fi2 parsed2 listed2 after f2 h2 hp2)
  -- their paths differ
  have hwf1 := wellFormed_append_right before _ (hes ▸ hsub.1)
  obtain ⟨hv1, hnot1, _, hwf1r⟩ := (Entries.wellFormed_cons _ _ _ _).1 hwf1
  have hwf2 := wellFormed_append_right between _ hwf1r
  obtain ⟨hv2, _, _, _⟩ := (Entries.wellFormed_cons _ _ _ _).1 hwf2
  have hname : fi1.Name ≠ fi2.Name := by
    intro e
    apply hnot1
    rw [names_append, e]
    simp [Entries.names]
  have hpath : Join D fi1.Name ≠ Join D fi2.Name := by
    intro e
    have e1 := cleanElems_join_parsed D fi1 h1 hv1
    have e2 := cleanElems_join_parsed D fi2 h2 hv2
    rw [e, e2] at e1
    simp only [List.cons.injEq, and_true] at e1
    exact hname (String.ext e1.symm)
  have hnd := declared_nodup D mode es hsub.1
  have huniq : ∀ q f f', (q, f) ∈ Entries.declared D mode es →
      (q, f') ∈ Entries.declared D mode es → f = f' := by
    intro q f f' hm hm'
    have a := (GoMap.get_eq_some_iff_mem (Entries.declared D mode es) hnd q f).2 hm
    have b := (GoMap.get_eq_some_iff_mem (Entries.declared D mode es) hnd q f').2 hm'
    rw [a] at b
    exact Option.some.inj b
  obtain ⟨r1, hr1, _, hf1⟩ := hrec D es _ f1 hD hd1
  obtain ⟨r2, hr2, _, hf2⟩ := hrec D es _ f2 hD hd2
  refine ⟨pkgs, r1, r2, hp, hr1, hr2, (hf1 _ f1).2 ⟨hd1, rfl⟩, (hf2 _ f2).2 ⟨hd2, rfl⟩, hpath,
    ?_, ?_, ?_⟩
  · intro e
    rw [e, hr2] at hr1
    exact (Option.some.inj hr1).symm
  · intro hne
    refine ⟨fun e => hne (key_name_inj D _ _ e), ?_, ?_⟩
    · cases hg : GoMap.get r1.Files (Join D fi2.Name) with
      | none => rfl
      | some f =>
        obtain ⟨hm, hnm⟩ := (hf1 _ f).1 hg
        exact absurd (by rw [← hnm, huniq _ f f2 hm hd2]) hne
    · cases hg : GoMap.get r2.Files (Join D fi1.Name) with
      | none => rfl
      | some f =>
        obtain ⟨hm, hnm⟩ := (hf2 _ f).1 hg
        exact absurd (by rw [← hnm, huniq _ f f1 hm hd1]) hne
  · constructor
    · rintro ⟨k, r, hk, hg1, hg2⟩
      obtain ⟨D', es', q', f', a, b, c⟩ := (hkeys k).1 ((GoMap.mem_keys_iff pkgs k).2 ⟨r, hk⟩)
      obtain ⟨rec, hrec', _, hfiles⟩ := hrec D' es' q' f' a b
      rw [c, hrec'] at hk
      have := Option.some.inj hk
      subst this
      rw [((hfiles _ f1).1 hg1).2, ((hfiles _ f2).1 hg2).2]
    · intro e
      refine ⟨_, r1, hr1, (hf1 _ f1).2 ⟨hd1, rfl⟩, (hf1 _ f2).2 ⟨hd2, e.symm⟩⟩

/-- C7 at a directory with two files that declare the same package. -/
theorem parseDirRecursive_same_package_witness :
    ∃ pkgs r1 r2,
      parseDirRecursive "/d" 0 (.ok samePackageTree) = { pkgs := some pkgs, err := none } ∧
      GoMap.get pkgs ("/d" ++ "#" ++ "p") = some r1 ∧
      GoMap.get pkgs ("/d" ++ "#" ++ "p") = some r2 ∧
      GoMap.get r1.Files (Join "/d" "a.go") = some { Name := "p", Rest := 1 } ∧
      GoMap.get r2.Files (Join "/d" "b.go") = some { Name := "p", Rest := 2 } ∧
      r1 = r2 := by
  obtain ⟨pkgs, r1, r2, h1, h2, h3, h4, h5, _, h7, _⟩ :=
    parseDirRecursive_same_package "/d" 0 samePackageTree (by decide) (by decide) (by decide)
      "/d" samePackageTree .nil .nil .nil
      { Name := "a.go", IsDir := false } { Name := "b.go", IsDir := false }
      (accepts "p" 1) (accepts "p" 2) (.fail "not a directory") (.fail "not a directory")
      { Name := "p", Rest := 1 } { Name := "p", Rest := 2 }
      (List.mem_cons_self _ _) rfl (by decide) (by decide) rfl rfl
  exact ⟨pkgs, r1, r2, h1, h2, h3, h4, h5, h7 rfl⟩

/-- C9: in a tree whose entry names are valid (not empty, without separator) and stand
once in their directory, and whose declared package names hold no `#`, the directories of
the traversal have pairwise different paths, a key `D + "#" + n` of the traversal
determines both the directory and the package name, and no merge of a nested result
writes a key that the accumulating map already holds, at any depth of the walk and
whether or not the walk ends with an error. -/
theorem merges_never_overwrite (dir : String) (mode : Mode) (l : Listing)
    (hw : Listing.wellFormed l = true) (hn : Listing.noHash mode l = true) :
    ((Listing.reached dir l).map Prod.fst).Nodup ∧
      (∀ D1 es1 q1 f1 D2 es2 q2 f2, (D1, es1) ∈ Listing.reached dir l →
        (q1, f1) ∈ Entries.declared D1 mode es1 → (D2, es2) ∈ Listing.reached dir l →
        (q2, f2) ∈ Entries.declared D2 mode es2 →
        D1 ++ "#" ++ f1.Name = D2 ++ "#" ++ f2.Name → D1 = D2 ∧ f1.Name = f2.Name) ∧
      Listing.overwritten dir mode l = [] := by
  refine ⟨reached_nodup l dir hw, ?_, listing_overwritten_nil mode l dir hw hn⟩
  intro D1 es1 q1 f1 D2 es2 q2 f2 h1 d1 h2 d2 e
  exact key_inj D1 D2 f1.Name f2.Name
    (declared_noHash D1 mode es1 (reached_sub l dir mode hw hn D1 es1 h1).2 q1 f1 d1)
    (declared_noHash D2 mode es2 (reached_sub l dir mode hw hn D2 es2 h2).2 q2 f2 d2) e

/-- C9 at the example of the specification. -/
theorem merges_never_overwrite_witness :
    ((Listing.reached "/root" (.ok exampleTree)).map Prod.fst).Nodup ∧
      Listing.overwritten "/root" 0 (.ok exampleTree) = [] :=
  ⟨(merges_never_overwrite "/root" 0 (.ok exampleTree) (by decide) (by decide)).1,
    (merges_never_overwrite "/root" 0 (.ok exampleTree) (by decide) (by decide)).2.2⟩

/-- What the merges do without the uniqueness of names: with two subdirectories of the
same name the second merge writes a key that is present, and the record of the first is
replaced. -/
theorem overwritten_collidingTree :
    Listing.overwritten "/r" 0 (.ok collidingTree) = ["/r/a#p"] ∧
      parseDirRecursive "/r" 0 (.ok collidingTree) =
        { pkgs := some [("/r/a#p",
            { Name := "/r/a#p", Files := [("/r/a/y.go", { Name := "p", Rest := 2 })] })],
          err := none } := by
  decide

end Astcontext
